import Mathlib

/-!
Verification of the pairwise similarity comparison engine of
ts-function-similarity: the Levenshtein edit-distance core
(src/levenshtein.ts), the pruning filter chain, the sequential pairwise
driver (src/comparator.ts), the worker inner loop (src/worker.ts) and the
parallel decomposition layer (src/comparatorParallel.ts).

Strings are modelled as `List Char`; JavaScript number arithmetic on
scores is modelled by exact rational arithmetic (`ℚ`), `Math.floor` by
`Int.floor` and `Math.round` by `round` (both round half up on the
non-negative values that occur here, exactly like their JS counterparts).
-/

/- Core marks the rational operations `@[irreducible]`, which would keep
`decide` from evaluating concrete scores; restore the default
reducibility for this development. -/
attribute [local semireducible] Rat.add Rat.sub Rat.mul Rat.inv

namespace TsSim

/-! ### Reference edit distance

`lev` is the textbook recurrence that the DP in
`levenshteinDistance` (src/levenshtein.ts, rolling-row form) computes:
cell (i, j) is the minimum of deletion, insertion, and substitution,
where substitution is free on equal characters.  It is proved below to
be the least number of single-character edit operations. -/

def lev : List Char → List Char → ℕ
  | [], ys => ys.length
  | x :: xs, [] => (x :: xs).length
  | x :: xs, y :: ys =>
      min (lev xs (y :: ys) + 1)
        (min (lev (x :: xs) ys + 1) (lev xs ys + (if x = y then 0 else 1)))
termination_by xs ys => xs.length + ys.length
decreasing_by all_goals simp_arith

@[simp] theorem lev_nil_left (ys : List Char) : lev [] ys = ys.length := by
  cases ys <;> simp [lev]

@[simp] theorem lev_nil_right (xs : List Char) : lev xs [] = xs.length := by
  cases xs <;> simp [lev]

theorem lev_cons_cons (x y : Char) (xs ys : List Char) :
    lev (x :: xs) (y :: ys) =
      min (lev xs (y :: ys) + 1)
        (min (lev (x :: xs) ys + 1) (lev xs ys + (if x = y then 0 else 1))) := by
  simp [lev]

theorem lev_self (xs : List Char) : lev xs xs = 0 := by
  induction xs with
  | nil => simp
  | cons x xs ih =>
      have h := lev_cons_cons x x xs xs
      simp [ih] at h
      omega

theorem lev_comm (xs ys : List Char) : lev xs ys = lev ys xs := by
  induction xs, ys using lev.induct with
  | case1 ys => simp
  | case2 x xs => simp
  | case3 x xs y ys ih1 ih2 ih3 =>
      rw [lev_cons_cons, lev_cons_cons, ih1, ih2, ih3]
      have hc : (if x = y then 0 else 1) = (if y = x then (0:ℕ) else 1) := by
        by_cases h : x = y <;> simp [h, Ne.symm, eq_comm]
      rw [hc]
      omega

/-- Deleting the head of the first operand changes the distance by at most one. -/
theorem lev_le_cons_left (x : Char) (xs ys : List Char) :
    lev (x :: xs) ys ≤ lev xs ys + 1 := by
  cases ys with
  | nil => simp
  | cons y ys => rw [lev_cons_cons]; omega

/-- Deleting the head of the second operand changes the distance by at most one. -/
theorem lev_le_cons_right (y : Char) (xs ys : List Char) :
    lev xs (y :: ys) ≤ lev xs ys + 1 := by
  cases xs with
  | nil => simp
  | cons x xs => rw [lev_cons_cons]; omega

theorem lev_le_sub (x y : Char) (xs ys : List Char) :
    lev (x :: xs) (y :: ys) ≤ lev xs ys + 1 := by
  rw [lev_cons_cons]
  by_cases h : x = y
  · rw [if_pos h]; omega
  · rw [if_neg h]; omega

/-- Adding one character in front of the first operand can only lower the
distance by one. -/
theorem lev_cons_left_ge (x : Char) (xs ys : List Char) :
    lev xs ys ≤ lev (x :: xs) ys + 1 := by
  induction ys generalizing xs with
  | nil => simp; omega
  | cons y ys ih =>
      rw [lev_cons_cons x y xs ys]
      have h1 : lev xs (y :: ys) ≤ lev xs ys + 1 := lev_le_cons_right y xs ys
      have h2 : lev xs (y :: ys) ≤ lev (x :: xs) ys + 1 + 1 := by
        calc lev xs (y :: ys) ≤ lev xs ys + 1 := h1
          _ ≤ (lev (x :: xs) ys + 1) + 1 := by have h3 := ih xs; omega
      omega

theorem lev_cons_right_ge (y : Char) (xs ys : List Char) :
    lev xs ys ≤ lev xs (y :: ys) + 1 := by
  rw [lev_comm xs ys, lev_comm xs (y :: ys)]
  exact lev_cons_left_ge y ys xs

/-- Diagonal monotonicity of the DP table. -/
theorem lev_le_cons_cons (x y : Char) (xs ys : List Char) :
    lev xs ys ≤ lev (x :: xs) (y :: ys) := by
  rw [lev_cons_cons]
  have h1 := lev_cons_right_ge y xs ys
  have h2 := lev_cons_left_ge x xs ys
  by_cases h : x = y
  · rw [if_pos h]; omega
  · rw [if_neg h]; omega

/-- The distance is at least the length difference. -/
theorem lev_length_lb (xs ys : List Char) :
    ((xs.length : ℤ) - ys.length).natAbs ≤ lev xs ys := by
  induction xs, ys using lev.induct with
  | case1 ys => simp
  | case2 x xs => simp; omega
  | case3 x xs y ys ih1 ih2 ih3 =>
      rw [lev_cons_cons]
      simp only [List.length_cons] at *
      by_cases h : x = y
      · rw [if_pos h]; omega
      · rw [if_neg h]; omega

/-- The distance is at most the longer length. -/
theorem lev_le_max (xs ys : List Char) : lev xs ys ≤ max xs.length ys.length := by
  induction xs, ys using lev.induct with
  | case1 ys => simp
  | case2 x xs => simp
  | case3 x xs y ys ih1 ih2 ih3 =>
      have h := lev_le_sub x y xs ys
      simp only [List.length_cons]
      omega

/-! ### Edit scripts

A single edit operation inserts, deletes, or substitutes one character at
an arbitrary position; `EditsTo n xs ys` says `ys` is reachable from `xs`
in exactly `n` operations.  The minimum `n` is the edit distance the spec
talks about. -/

inductive EditStep : List Char → List Char → Prop where
  | insert (as bs : List Char) (c : Char) : EditStep (as ++ bs) (as ++ c :: bs)
  | delete (as bs : List Char) (c : Char) : EditStep (as ++ c :: bs) (as ++ bs)
  | subst (as bs : List Char) (c d : Char) : EditStep (as ++ c :: bs) (as ++ d :: bs)

inductive EditsTo : ℕ → List Char → List Char → Prop where
  | refl (xs : List Char) : EditsTo 0 xs xs
  | step {n : ℕ} {xs ys zs : List Char} :
      EditStep xs ys → EditsTo n ys zs → EditsTo (n + 1) xs zs

theorem editStep_cons {xs ys : List Char} (a : Char) (h : EditStep xs ys) :
    EditStep (a :: xs) (a :: ys) := by
  cases h with
  | insert as bs c => exact EditStep.insert (a :: as) bs c
  | delete as bs c => exact EditStep.delete (a :: as) bs c
  | subst as bs c d => exact EditStep.subst (a :: as) bs c d

theorem editsTo_cons {n : ℕ} {xs ys : List Char} (a : Char) (h : EditsTo n xs ys) :
    EditsTo n (a :: xs) (a :: ys) := by
  induction h with
  | refl xs => exact EditsTo.refl _
  | step hs _ ih => exact EditsTo.step (editStep_cons a hs) ih

theorem editsTo_snoc {n : ℕ} {xs ys zs : List Char}
    (h : EditsTo n xs ys) (hs : EditStep ys zs) : EditsTo (n + 1) xs zs := by
  induction h with
  | refl xs => exact EditsTo.step hs (EditsTo.refl _)
  | step hstep _ ih => exact EditsTo.step hstep (ih hs)

theorem editsTo_insert_all (ys : List Char) : EditsTo ys.length [] ys := by
  induction ys with
  | nil => exact EditsTo.refl _
  | cons y ys ih =>
      exact EditsTo.step (EditStep.insert [] [] y) (editsTo_cons y ih)

theorem editsTo_delete_all (xs : List Char) : EditsTo xs.length xs [] := by
  induction xs with
  | nil => exact EditsTo.refl _
  | cons x xs ih =>
      exact EditsTo.step (EditStep.delete [] xs x) ih

/-- Upper bound: `lev` many operations always suffice. -/
theorem editsTo_lev (xs ys : List Char) : EditsTo (lev xs ys) xs ys := by
  induction xs, ys using lev.induct with
  | case1 ys => simpa using editsTo_insert_all ys
  | case2 x xs => simpa using editsTo_delete_all (x :: xs)
  | case3 x xs y ys ih1 ih2 ih3 =>
      rw [lev_cons_cons]
      rcases Nat.lt_trichotomy (lev xs (y :: ys) + 1)
          (min (lev (x :: xs) ys + 1) (lev xs ys + (if x = y then 0 else 1))) with h | h | h
      · rw [min_eq_left h.le]
        exact EditsTo.step (EditStep.delete [] xs x) ih1
      · rw [min_eq_left h.le]
        exact EditsTo.step (EditStep.delete [] xs x) ih1
      · rw [min_eq_right h.le]
        rcases le_total (lev (x :: xs) ys + 1) (lev xs ys + (if x = y then 0 else 1)) with h2 | h2
        · rw [min_eq_left h2]
          exact editsTo_snoc ih2 (EditStep.insert [] ys y)
        · rw [min_eq_right h2]
          by_cases hxy : x = y
          · rw [if_pos hxy]; subst hxy; exact editsTo_cons x ih3
          · rw [if_neg hxy]
            exact EditsTo.step (EditStep.subst [] xs x y) (editsTo_cons y ih3)

/-- One edit on the first operand moves `lev` by at most one: auxiliary
congruence walking a shared prefix. -/
theorem lev_cons_le_of_le (a : Char) {u v : List Char}
    (h : ∀ t, lev u t ≤ lev v t + 1) : ∀ t, lev (a :: u) t ≤ lev (a :: v) t + 1 := by
  intro t
  induction t with
  | nil =>
      have h0 := h []
      simp at h0 ⊢
      omega
  | cons y ys ih =>
      rw [lev_cons_cons a y u ys, lev_cons_cons a y v ys]
      have hd : lev u (y :: ys) ≤ lev v (y :: ys) + 1 := h (y :: ys)
      have hs : lev u ys ≤ lev v ys + 1 := h ys
      by_cases hxy : a = y <;>
        simp only [if_pos, if_neg, hxy, if_true, if_false] at ih ⊢ <;> omega

theorem lev_insert_le (c : Char) (as bs : List Char) :
    ∀ t, lev (as ++ c :: bs) t ≤ lev (as ++ bs) t + 1 := by
  induction as with
  | nil => intro t; exact lev_le_cons_left c bs t
  | cons a as ih => exact lev_cons_le_of_le a ih

theorem lev_delete_le (c : Char) (as bs : List Char) :
    ∀ t, lev (as ++ bs) t ≤ lev (as ++ c :: bs) t + 1 := by
  induction as with
  | nil => intro t; exact lev_cons_left_ge c bs t
  | cons a as ih => exact lev_cons_le_of_le a ih

theorem lev_subst_le (c d : Char) (as bs : List Char) :
    ∀ t, lev (as ++ d :: bs) t ≤ lev (as ++ c :: bs) t + 1 := by
  induction as with
  | nil =>
      intro t
      simp only [List.nil_append]
      induction t with
      | nil => simp
      | cons y ys ih =>
          rw [lev_cons_cons d y bs ys, lev_cons_cons c y bs ys]
          by_cases hdy : d = y
          · rw [if_pos hdy]
            by_cases hcy : c = y
            · rw [if_pos hcy]; omega
            · rw [if_neg hcy]; omega
          · rw [if_neg hdy]
            by_cases hcy : c = y
            · rw [if_pos hcy]; omega
            · rw [if_neg hcy]; omega
  | cons a as ih => exact lev_cons_le_of_le a ih

theorem lev_editStep_le {xs ys : List Char} (h : EditStep xs ys) (t : List Char) :
    lev xs t ≤ lev ys t + 1 := by
  cases h with
  | insert as bs c => exact lev_delete_le c as bs t
  | delete as bs c => exact lev_insert_le c as bs t
  | subst as bs c d => exact lev_subst_le d c as bs t

/-- Lower bound: no edit script is shorter than `lev`. -/
theorem lev_le_editsTo {n : ℕ} {xs ys : List Char} (h : EditsTo n xs ys) :
    lev xs ys ≤ n := by
  induction h with
  | refl xs => simp [lev_self]
  | step hs _ ih =>
      exact le_trans (lev_editStep_le hs _) (Nat.add_le_add_right ih 1)

theorem editStep_reverse {xs ys : List Char} (h : EditStep xs ys) :
    EditStep xs.reverse ys.reverse := by
  cases h with
  | insert as bs c =>
      have h1 : (as ++ bs).reverse = bs.reverse ++ as.reverse := by simp
      have h2 : (as ++ c :: bs).reverse = bs.reverse ++ c :: as.reverse := by simp
      rw [h1, h2]
      exact EditStep.insert bs.reverse as.reverse c
  | delete as bs c =>
      have h1 : (as ++ bs).reverse = bs.reverse ++ as.reverse := by simp
      have h2 : (as ++ c :: bs).reverse = bs.reverse ++ c :: as.reverse := by simp
      rw [h1, h2]
      exact EditStep.delete bs.reverse as.reverse c
  | subst as bs c d =>
      have h1 : (as ++ c :: bs).reverse = bs.reverse ++ c :: as.reverse := by simp
      have h2 : (as ++ d :: bs).reverse = bs.reverse ++ d :: as.reverse := by simp
      rw [h1, h2]
      exact EditStep.subst bs.reverse as.reverse c d

theorem editsTo_reverse {n : ℕ} {xs ys : List Char} (h : EditsTo n xs ys) :
    EditsTo n xs.reverse ys.reverse := by
  induction h with
  | refl xs => exact EditsTo.refl _
  | step hs _ ih => exact EditsTo.step (editStep_reverse hs) ih

/-- The edit distance is invariant under reversing both operands. -/
theorem lev_reverse (xs ys : List Char) : lev xs.reverse ys.reverse = lev xs ys := by
  apply le_antisymm
  · exact lev_le_editsTo (editsTo_reverse (editsTo_lev xs ys))
  · have h := lev_le_editsTo (editsTo_reverse (editsTo_lev xs.reverse ys.reverse))
    simpa using h

/-! ### The rolling-row implementation (src/levenshtein.ts)

`levRowAux` is the inner `for (let j = 1; ...)` loop of
`levenshteinDistance` / `levenshteinDistanceWithThreshold`: it receives
the previous row (as a list of length `len2 + 1`) and the value of
`currRow[0]` and produces `currRow[1..len2]`.  `levLoop` is the outer
`for (let i = 1; ...)` loop; `levTLoop` is the same loop with the
per-row early-termination check of the thresholded variant. -/

def levRowAux (x : Char) : List Char → List ℕ → ℕ → List ℕ
  | y :: ys, p0 :: p1 :: ps, left =>
      let cost : ℕ := if x = y then 0 else 1
      let cell := min (p1 + 1) (min (left + 1) (p0 + cost))
      cell :: levRowAux x ys (p1 :: ps) cell
  | _, _, _ => []

def levLoop (ys : List Char) : List Char → List ℕ → ℕ → List ℕ
  | [], prev, _ => prev
  | x :: xs, prev, i => levLoop ys xs ((i + 1) :: levRowAux x ys prev (i + 1)) (i + 1)

/-- The thresholded outer loop: after each row, if the minimum value in
the row exceeds the ceiling, abort with `c + 1`. -/
def levTLoop (c : ℤ) (ys : List Char) : List Char → List ℕ → ℕ → ℤ
  | [], prev, _ => ((prev.getD ys.length 0 : ℕ) : ℤ)
  | x :: xs, prev, i =>
      let row := levRowAux x ys prev (i + 1)
      let minInRow := row.foldl min (i + 1)
      if c < (minInRow : ℤ) then c + 1
      else levTLoop c ys xs ((i + 1) :: row) (i + 1)

/-- Row `i` of the DP over prefixes, indexed from column `w'.length`:
entry `j` is the distance between the processed (reversed) prefix `p` of
the first string and the prefix of the second string that ends with the
reversed prefix `w'`. -/
def suffRow (p w' : List Char) : List Char → List ℕ
  | [] => [lev p w']
  | y :: v => lev p w' :: suffRow p (y :: w') v

theorem suffRow_len (p w' v : List Char) : (suffRow p w' v).length = v.length + 1 := by
  induction v generalizing w' with
  | nil => simp [suffRow]
  | cons y v ih => simp [suffRow, ih]

theorem suffRow_nil (w' v : List Char) :
    suffRow [] w' v = List.range' w'.length (v.length + 1) := by
  induction v generalizing w' with
  | nil => simp [suffRow]
  | cons y v ih =>
      rw [suffRow, ih]
      simp [List.range'_succ]

theorem suffRow_getD_last (p w' v : List Char) :
    (suffRow p w' v).getD v.length 0 = lev p (v.reverse ++ w') := by
  induction v generalizing w' with
  | nil => simp [suffRow]
  | cons y v ih =>
      rw [suffRow]
      simpa using ih (y :: w')

theorem suffRow_cons_shape (p w' : List Char) (v : List Char) :
    suffRow p w' v = lev p w' :: (suffRow p w' v).tail := by
  cases v <;> simp [suffRow]

theorem suffRow_mem (p w' : List Char) (v : List Char) (j : ℕ) (hj : j ≤ v.length) :
    lev p ((v.take j).reverse ++ w') ∈ suffRow p w' v := by
  induction v generalizing w' j with
  | nil =>
      have hj0 : j = 0 := by simpa using hj
      subst hj0
      simp [suffRow]
  | cons y v ih =>
      cases j with
      | zero => simp [suffRow]
      | succ k =>
          rw [suffRow]
          right
          have h : ((y :: v).take (k + 1)).reverse ++ w' = (v.take k).reverse ++ (y :: w') := by
            simp
          rw [h]
          exact ih (y :: w') k (by simpa using hj)

/-- Correctness of the inner loop: starting from row `p` it produces the
tail of row `x :: p`. -/
theorem levRowAux_spec (x : Char) (p : List Char) :
    ∀ (v w' : List Char), levRowAux x v (suffRow p w' v) (lev (x :: p) w') =
      (suffRow (x :: p) w' v).tail := by
  intro v
  induction v with
  | nil => intro w'; simp [suffRow, levRowAux]
  | cons y v ih =>
      intro w'
      rw [show suffRow p w' (y :: v) = lev p w' :: suffRow p (y :: w') v from rfl]
      rw [show (suffRow (x :: p) w' (y :: v)).tail = suffRow (x :: p) (y :: w') v from rfl]
      rw [suffRow_cons_shape p (y :: w') v]
      simp only [levRowAux]
      rw [← lev_cons_cons x y p w']
      rw [← suffRow_cons_shape p (y :: w') v]
      rw [ih (y :: w')]
      rw [← suffRow_cons_shape (x :: p) (y :: w') v]

theorem levRowFun_spec (x : Char) (p ys : List Char) :
    (lev (x :: p) [] :: levRowAux x ys (suffRow p [] ys) (lev (x :: p) [])) =
      suffRow (x :: p) [] ys := by
  rw [levRowAux_spec]
  cases ys <;> simp [suffRow]

/-- Correctness of the outer loop. -/
theorem levLoop_spec (ys : List Char) :
    ∀ (t p : List Char), levLoop ys t (suffRow p [] ys) p.length =
      suffRow (t.reverse ++ p) [] ys := by
  intro t
  induction t with
  | nil => intro p; simp [levLoop]
  | cons x t ih =>
      intro p
      rw [show levLoop ys (x :: t) (suffRow p [] ys) p.length =
          levLoop ys t ((p.length + 1) :: levRowAux x ys (suffRow p [] ys) (p.length + 1))
            (p.length + 1) from rfl]
      have hx : lev (x :: p) [] = p.length + 1 := by simp
      rw [show ((p.length + 1) :: levRowAux x ys (suffRow p [] ys) (p.length + 1)) =
          (lev (x :: p) [] :: levRowAux x ys (suffRow p [] ys) (lev (x :: p) [])) from by
            rw [hx]]
      rw [levRowFun_spec x p ys]
      have ih2 := ih (x :: p)
      simp only [List.length_cons] at ih2
      rw [ih2]
      simp

/-- The complete unthresholded core after the early exits: swap so the
first string is the shorter, run the rows, read the last entry. -/
def levCore (str1 str2 : List Char) : ℕ :=
  let p := if str2.length < str1.length then (str2, str1) else (str1, str2)
  (levLoop p.2 p.1 (List.range (p.2.length + 1)) 0).getD p.2.length 0

theorem levCore_run (a b : List Char) :
    (levLoop b a (List.range (b.length + 1)) 0).getD b.length 0 = lev a b := by
  have hinit : List.range (b.length + 1) = suffRow [] [] b := by
    rw [suffRow_nil]
    simp [List.range_eq_range']
  rw [hinit]
  have h := levLoop_spec b a []
  simp only [List.length_nil, List.append_nil] at h
  rw [h, suffRow_getD_last]
  simp only [List.append_nil]
  exact lev_reverse a b

theorem levCore_eq (str1 str2 : List Char) : levCore str1 str2 = lev str1 str2 := by
  rw [levCore]
  by_cases h : str2.length < str1.length
  · simp only [if_pos h]
    rw [levCore_run str2 str1, lev_comm]
  · simp only [if_neg h]
    exact levCore_run str1 str2

/-! ### Early termination: the thresholded loop -/

theorem foldl_min_le_self (l : List ℕ) (a : ℕ) : l.foldl min a ≤ a := by
  induction l generalizing a with
  | nil => simp
  | cons x l ih => exact le_trans (ih (min a x)) (by omega)

theorem foldl_min_le_mem {b : ℕ} {l : List ℕ} (h : b ∈ l) (a : ℕ) :
    l.foldl min a ≤ b := by
  induction l generalizing a with
  | nil => simp at h
  | cons x l ih =>
      rcases List.mem_cons.mp h with h | h
      · subst h
        exact le_trans (foldl_min_le_self l (min a b)) (by omega)
      · exact ih h (min a x)

theorem take_succ_reverse (ys : List Char) (j : ℕ) (hj : j < ys.length) :
    (ys.take (j + 1)).reverse = ys.get ⟨j, hj⟩ :: (ys.take j).reverse := by
  rw [List.take_succ]
  have : ys[j]? = some (ys.get ⟨j, hj⟩) := by
    rw [List.getElem?_eq_getElem hj]
    simp
  rw [this]
  simp

/-- Some entry of row `|processed|` is a lower bound for the final
distance: walking the diagonal from that entry reaches cell `(m, n)`. -/
theorem lev_row_reach (ys : List Char) :
    ∀ (t w : List Char), t.length ≤ ys.length →
      lev w ((ys.take (ys.length - t.length)).reverse) ≤ lev (t.reverse ++ w) ys.reverse := by
  intro t
  induction t with
  | nil =>
      intro w _
      simp
  | cons a t ih =>
      intro w hlen
      simp only [List.length_cons] at hlen
      have hne : ys.length - t.length = (ys.length - (a :: t).length) + 1 := by
        simp only [List.length_cons]
        omega
      have hj : ys.length - (a :: t).length < ys.length := by
        simp only [List.length_cons]
        omega
      have ih2 := ih (a :: w) (by omega)
      rw [hne, take_succ_reverse ys _ hj] at ih2
      have hdiag := lev_le_cons_cons a (ys.get ⟨ys.length - (a :: t).length, hj⟩) w
        ((ys.take (ys.length - (a :: t).length)).reverse)
      have hrw : ((a :: t).reverse ++ w : List Char) = t.reverse ++ (a :: w) := by simp
      rw [hrw]
      exact le_trans hdiag ih2

/-- Whatever happens, the thresholded loop returns `c + 1` or the exact
distance. -/
theorem levTLoop_cases (c : ℤ) (ys : List Char) :
    ∀ (t p : List Char),
      levTLoop c ys t (suffRow p [] ys) p.length = c + 1 ∨
      levTLoop c ys t (suffRow p [] ys) p.length = (lev (t.reverse ++ p) ys.reverse : ℤ) := by
  intro t
  induction t with
  | nil =>
      intro p
      right
      rw [levTLoop]
      rw [show (suffRow p [] ys).getD ys.length 0 = lev p (ys.reverse ++ []) from
        suffRow_getD_last p [] ys]
      simp
  | cons x t ih =>
      intro p
      rw [show levTLoop c ys (x :: t) (suffRow p [] ys) p.length =
          (if c < (((levRowAux x ys (suffRow p [] ys) (p.length + 1)).foldl min
              (p.length + 1) : ℕ) : ℤ) then c + 1
           else levTLoop c ys t
              ((p.length + 1) :: levRowAux x ys (suffRow p [] ys) (p.length + 1))
              (p.length + 1)) from rfl]
      by_cases habort :
          c < (((levRowAux x ys (suffRow p [] ys) (p.length + 1)).foldl min
            (p.length + 1) : ℕ) : ℤ)
      · rw [if_pos habort]
        left
        rfl
      · rw [if_neg habort]
        have hx : lev (x :: p) [] = p.length + 1 := by simp
        have hrow : ((p.length + 1) :: levRowAux x ys (suffRow p [] ys) (p.length + 1)) =
            suffRow (x :: p) [] ys := by
          rw [← hx, levRowFun_spec x p ys]
        rw [hrow]
        have ih2 := ih (x :: p)
        simp only [List.length_cons] at ih2
        rcases ih2 with h | h
        · left; exact h
        · right
          rw [h]
          congr 2
          simp

/-- If the true distance is within the ceiling, no row can trigger the
early termination and the loop returns the true distance. -/
theorem levTLoop_no_abort (c : ℤ) (ys : List Char) :
    ∀ (t p : List Char), t.length ≤ ys.length →
      ((lev (t.reverse ++ p) ys.reverse : ℤ) ≤ c) →
      levTLoop c ys t (suffRow p [] ys) p.length = (lev (t.reverse ++ p) ys.reverse : ℤ) := by
  intro t
  induction t with
  | nil =>
      intro p _ _
      rw [levTLoop]
      rw [show (suffRow p [] ys).getD ys.length 0 = lev p (ys.reverse ++ []) from
        suffRow_getD_last p [] ys]
      simp
  | cons x t ih =>
      intro p hlen hle
      simp only [List.length_cons] at hlen
      rw [show levTLoop c ys (x :: t) (suffRow p [] ys) p.length =
          (if c < (((levRowAux x ys (suffRow p [] ys) (p.length + 1)).foldl min
              (p.length + 1) : ℕ) : ℤ) then c + 1
           else levTLoop c ys t
              ((p.length + 1) :: levRowAux x ys (suffRow p [] ys) (p.length + 1))
              (p.length + 1)) from rfl]
      have hx : lev (x :: p) [] = p.length + 1 := by simp
      have hrow : ((p.length + 1) :: levRowAux x ys (suffRow p [] ys) (p.length + 1)) =
          suffRow (x :: p) [] ys := by
        rw [← hx, levRowFun_spec x p ys]
      have hd : ((x :: t).reverse ++ p : List Char) = t.reverse ++ (x :: p) := by simp
      have hreach := lev_row_reach ys t (x :: p) (by omega)
      have hmem : lev (x :: p) ((ys.take (ys.length - t.length)).reverse) ∈
          suffRow (x :: p) [] ys := by
        have := suffRow_mem (x :: p) [] ys (ys.length - t.length) (by omega)
        simpa using this
      rw [← hrow] at hmem
      have hminle : (levRowAux x ys (suffRow p [] ys) (p.length + 1)).foldl min (p.length + 1) ≤
          lev (x :: p) ((ys.take (ys.length - t.length)).reverse) := by
        rcases List.mem_cons.mp hmem with h | h
        · rw [← h]
          exact foldl_min_le_self _ _
        · exact foldl_min_le_mem h _
      have habort : ¬ (c <
          (((levRowAux x ys (suffRow p [] ys) (p.length + 1)).foldl min
            (p.length + 1) : ℕ) : ℤ)) := by
        rw [hd] at hle
        have h1 : (lev (x :: p) ((ys.take (ys.length - t.length)).reverse) : ℤ) ≤ c :=
          le_trans (by exact_mod_cast hreach) hle
        push_neg
        exact le_trans (by exact_mod_cast hminle) h1
      rw [if_neg habort, hrow]
      have ih2 := ih (x :: p) (by omega) (by rw [← hd]; exact hle)
      simp only [List.length_cons] at ih2
      rw [ih2, hd]

/-- The thresholded core after the early exits (swap, rows, abort checks). -/
def levTCore (c : ℤ) (str1 str2 : List Char) : ℤ :=
  let p := if str2.length < str1.length then (str2, str1) else (str1, str2)
  levTLoop c p.2 p.1 (List.range (p.2.length + 1)) 0

theorem levTCore_run_cases (c : ℤ) (a b : List Char) :
    levTLoop c b a (List.range (b.length + 1)) 0 = c + 1 ∨
    levTLoop c b a (List.range (b.length + 1)) 0 = (lev a b : ℤ) := by
  have hinit : List.range (b.length + 1) = suffRow [] [] b := by
    rw [suffRow_nil]
    simp [List.range_eq_range']
  rw [hinit]
  have h := levTLoop_cases c b a []
  simp only [List.length_nil, List.append_nil] at h
  rcases h with h | h
  · left; exact h
  · right; rw [h, lev_reverse]

theorem levTCore_run_le (c : ℤ) (a b : List Char) (hlen : a.length ≤ b.length)
    (hle : (lev a b : ℤ) ≤ c) :
    levTLoop c b a (List.range (b.length + 1)) 0 = (lev a b : ℤ) := by
  have hinit : List.range (b.length + 1) = suffRow [] [] b := by
    rw [suffRow_nil]
    simp [List.range_eq_range']
  rw [hinit]
  have h := levTLoop_no_abort c b a [] hlen (by rw [List.append_nil, lev_reverse]; exact hle)
  simp only [List.length_nil, List.append_nil] at h
  rw [h, lev_reverse]

theorem levTCore_cases (c : ℤ) (str1 str2 : List Char) :
    levTCore c str1 str2 = c + 1 ∨ levTCore c str1 str2 = (lev str1 str2 : ℤ) := by
  rw [levTCore]
  by_cases h : str2.length < str1.length
  · simp only [if_pos h]
    rcases levTCore_run_cases c str2 str1 with h2 | h2
    · left; exact h2
    · right; rw [h2, lev_comm]
  · simp only [if_neg h]
    exact levTCore_run_cases c str1 str2

theorem levTCore_eq_of_le (c : ℤ) (str1 str2 : List Char)
    (hle : (lev str1 str2 : ℤ) ≤ c) : levTCore c str1 str2 = (lev str1 str2 : ℤ) := by
  rw [levTCore]
  by_cases h : str2.length < str1.length
  · simp only [if_pos h]
    have h2 := levTCore_run_le c str2 str1 (by omega) (by rw [lev_comm]; exact hle)
    rw [h2, lev_comm]
  · simp only [if_neg h]
    exact levTCore_run_le c str1 str2 (by omega) hle

/-! ### The exported distance functions (src/levenshtein.ts) -/

/-- `levenshteinDistance` of src/levenshtein.ts: early exits for empty
operands and equal strings, then the rolling-row DP on the shorter
operand. -/
def levenshteinDistance (str1 str2 : List Char) : ℕ :=
  if str1.length = 0 then str2.length
  else if str2.length = 0 then str1.length
  else if str1 = str2 then 0
  else levCore str1 str2

/-- `levenshteinDistanceWithThreshold` of src/levenshtein.ts: same early
exits; with a ceiling, an immediate `maxDistance + 1` exit when the
length difference alone exceeds it, and per-row early termination.
Without a ceiling the loop never aborts, i.e. it is `levCore`. -/
def levenshteinDistanceWithThreshold (str1 str2 : List Char)
    (maxDistance : Option ℤ) : ℤ :=
  if str1.length = 0 then (str2.length : ℤ)
  else if str2.length = 0 then (str1.length : ℤ)
  else if str1 = str2 then 0
  else
    match maxDistance with
    | none => (levCore str1 str2 : ℤ)
    | some c =>
        if c < ((((str2.length : ℤ) - (str1.length : ℤ)).natAbs : ℕ) : ℤ) then c + 1
        else levTCore c str1 str2

theorem levenshteinDistance_eq (str1 str2 : List Char) :
    levenshteinDistance str1 str2 = lev str1 str2 := by
  rw [levenshteinDistance]
  by_cases h1 : str1.length = 0
  · rw [if_pos h1]
    rw [List.length_eq_zero.mp h1]
    simp
  · rw [if_neg h1]
    by_cases h2 : str2.length = 0
    · rw [if_pos h2]
      rw [List.length_eq_zero.mp h2]
      simp
    · rw [if_neg h2]
      by_cases h3 : str1 = str2
      · rw [if_pos h3, h3, lev_self]
      · rw [if_neg h3]
        exact levCore_eq str1 str2

theorem levWT_none_eq (str1 str2 : List Char) :
    levenshteinDistanceWithThreshold str1 str2 none = (lev str1 str2 : ℤ) := by
  rw [levenshteinDistanceWithThreshold]
  by_cases h1 : str1.length = 0
  · rw [if_pos h1, List.length_eq_zero.mp h1]; simp
  · rw [if_neg h1]
    by_cases h2 : str2.length = 0
    · rw [if_pos h2, List.length_eq_zero.mp h2]; simp
    · rw [if_neg h2]
      by_cases h3 : str1 = str2
      · rw [if_pos h3, h3, lev_self]; simp
      · rw [if_neg h3]
        simp [levCore_eq]

theorem levWT_some_cases (str1 str2 : List Char) (c : ℤ) :
    levenshteinDistanceWithThreshold str1 str2 (some c) = c + 1 ∨
    levenshteinDistanceWithThreshold str1 str2 (some c) = (lev str1 str2 : ℤ) := by
  rw [levenshteinDistanceWithThreshold]
  by_cases h1 : str1.length = 0
  · rw [if_pos h1, List.length_eq_zero.mp h1]; right; simp
  · rw [if_neg h1]
    by_cases h2 : str2.length = 0
    · rw [if_pos h2, List.length_eq_zero.mp h2]; right; simp
    · rw [if_neg h2]
      by_cases h3 : str1 = str2
      · rw [if_pos h3, h3, lev_self]; right; simp
      · rw [if_neg h3]
        by_cases h4 : c < ((((str2.length : ℤ) - (str1.length : ℤ)).natAbs : ℕ) : ℤ)
        · rw [if_pos h4]; left; rfl
        · rw [if_neg h4]
          exact levTCore_cases c str1 str2

theorem levWT_some_eq_of_le (str1 str2 : List Char) (c : ℤ)
    (hle : (lev str1 str2 : ℤ) ≤ c) :
    levenshteinDistanceWithThreshold str1 str2 (some c) = (lev str1 str2 : ℤ) := by
  rw [levenshteinDistanceWithThreshold]
  by_cases h1 : str1.length = 0
  · rw [if_pos h1, List.length_eq_zero.mp h1]; simp
  · rw [if_neg h1]
    by_cases h2 : str2.length = 0
    · rw [if_pos h2, List.length_eq_zero.mp h2]; simp
    · rw [if_neg h2]
      by_cases h3 : str1 = str2
      · rw [if_pos h3, h3, lev_self]; simp
      · rw [if_neg h3]
        have hlb := lev_length_lb str1 str2
        have h4 : ¬ (c < ((((str2.length : ℤ) - (str1.length : ℤ)).natAbs : ℕ) : ℤ)) := by
          push_neg
          have : ((str2.length : ℤ) - (str1.length : ℤ)).natAbs =
              ((str1.length : ℤ) - (str2.length : ℤ)).natAbs := by omega
          rw [this]
          calc ((((str1.length : ℤ) - (str2.length : ℤ)).natAbs : ℕ) : ℤ)
              ≤ (lev str1 str2 : ℤ) := by exact_mod_cast hlb
            _ ≤ c := hle
        rw [if_neg h4]
        exact levTCore_eq_of_le c str1 str2 hle

/-! ### Similarity scorers (src/levenshtein.ts) -/

/-- `calculateSimilarity` of src/levenshtein.ts: percentage score rounded
to two decimal places, with the degenerate cases handled up front. -/
def calculateSimilarity (str1 str2 : List Char) : ℚ :=
  if str1 = str2 then 100
  else if str1.length = 0 ∧ str2.length = 0 then 100
  else if str1.length = 0 ∨ str2.length = 0 then 0
  else
    let distance := levenshteinDistance str1 str2
    let maxLength := max str1.length str2.length
    let similarity := (((maxLength : ℚ) - (distance : ℚ)) / (maxLength : ℚ)) * 100
    ((round (similarity * 100) : ℤ) : ℚ) / 100

/-- `calculateSimilarityWithThreshold` of src/levenshtein.ts: converts the
similarity threshold into a distance ceiling, runs the thresholded
distance, reports 0 when the ceiling was exceeded. -/
def calculateSimilarityWithThreshold (str1 str2 : List Char)
    (minSimilarity : Option ℚ) : ℚ :=
  if str1 = str2 then 100
  else if str1.length = 0 ∧ str2.length = 0 then 100
  else if str1.length = 0 ∨ str2.length = 0 then 0
  else
    let maxLength := max str1.length str2.length
    let maxDistance : Option ℤ :=
      minSimilarity.map (fun ms => ⌊(maxLength : ℚ) * (1 - ms / 100)⌋)
    let distance := levenshteinDistanceWithThreshold str1 str2 maxDistance
    match maxDistance with
    | some c =>
        if c < distance then 0
        else ((round ((((maxLength : ℚ) - (distance : ℚ)) / (maxLength : ℚ)) * 10000) : ℤ) : ℚ) / 100
    | none =>
        ((round ((((maxLength : ℚ) - (distance : ℚ)) / (maxLength : ℚ)) * 10000) : ℤ) : ℚ) / 100

/-- `failsFrequencyCheck` of src/levenshtein.ts: half the summed absolute
character-frequency differences is a lower bound on the edit distance;
reject when it already exceeds the allowed distance. -/
def freqDiffSum (str1 str2 : List Char) : ℕ :=
  (((str1 ++ str2).dedup).map
    (fun ch => (str1.count ch - str2.count ch) + (str2.count ch - str1.count ch))).sum

def failsFrequencyCheck (str1 str2 : List Char) (maxDistance : ℤ) : Bool :=
  decide ((freqDiffSum str1 str2 : ℚ) / 2 > (maxDistance : ℚ))

/-! #### The frequency sum is a (doubled) lower bound on the distance -/

theorem dedup_map_sum (l : List Char) (f : Char → ℕ) :
    (l.dedup.map f).sum = ∑ ch ∈ l.toFinset, f ch := by
  rw [Finset.sum]
  rw [List.toFinset_val]
  simp

theorem card_sub_eq_sum (s t : List Char) :
    ((s : Multiset Char) - (t : Multiset Char)).card =
      ∑ ch ∈ (s ++ t).toFinset, (s.count ch - t.count ch) := by
  rw [← Multiset.toFinset_sum_count_eq ((s : Multiset Char) - (t : Multiset Char))]
  have hsub : ((s : Multiset Char) - (t : Multiset Char)).toFinset ⊆ (s ++ t).toFinset := by
    intro ch hch
    have h1 : ch ∈ (s : Multiset Char) - (t : Multiset Char) := Multiset.mem_toFinset.mp hch
    have h2 : ch ∈ (s : Multiset Char) := Multiset.mem_of_le (tsub_le_self) h1
    simp only [List.mem_toFinset, List.mem_append]
    left
    simpa using h2
  rw [Finset.sum_subset hsub (fun ch _ hch =>
    Multiset.count_eq_zero_of_not_mem (fun hmem => hch (Multiset.mem_toFinset.mpr hmem)))]
  apply Finset.sum_congr rfl
  intro ch _
  rw [Multiset.count_sub]
  simp

/-- The sum the source computes equals the symmetric multiset-difference
cardinality. -/
theorem freqDiffSum_eq (s t : List Char) :
    freqDiffSum s t = ((s : Multiset Char) - (t : Multiset Char)).card +
      ((t : Multiset Char) - (s : Multiset Char)).card := by
  have hfs : (t ++ s).toFinset = (s ++ t).toFinset := by
    ext ch
    simp only [List.mem_toFinset, List.mem_append]
    tauto
  rw [freqDiffSum, dedup_map_sum, card_sub_eq_sum s t, card_sub_eq_sum t s, hfs,
    ← Finset.sum_add_distrib]

theorem asym_triangle (m1 m2 m3 : Multiset Char) :
    (m1 - m3).card + (m3 - m1).card ≤
      ((m1 - m2).card + (m2 - m1).card) + ((m2 - m3).card + (m3 - m2).card) := by
  have h1 : m1 - m3 ≤ (m1 - m2) + (m2 - m3) := by
    rw [tsub_le_iff_right]
    calc m1 ≤ (m1 - m2) + m2 := le_tsub_add
      _ ≤ (m1 - m2) + ((m2 - m3) + m3) := by
          apply add_le_add_left
          exact le_tsub_add
      _ = (m1 - m2) + (m2 - m3) + m3 := by rw [add_assoc]
  have h2 : m3 - m1 ≤ (m3 - m2) + (m2 - m1) := by
    rw [tsub_le_iff_right]
    calc m3 ≤ (m3 - m2) + m2 := le_tsub_add
      _ ≤ (m3 - m2) + ((m2 - m1) + m1) := by
          apply add_le_add_left
          exact le_tsub_add
      _ = (m3 - m2) + (m2 - m1) + m1 := by rw [add_assoc]
  have c1 := Multiset.card_le_card h1
  have c2 := Multiset.card_le_card h2
  simp only [Multiset.card_add] at c1 c2
  omega

theorem asym_editStep {u v : List Char} (h : EditStep u v) :
    ((u : Multiset Char) - (v : Multiset Char)).card +
      ((v : Multiset Char) - (u : Multiset Char)).card ≤ 2 := by
  have hsub : ∀ (B : Multiset Char) (c : Char), ((B + {c}) - B).card ≤ 1 := by
    intro B c
    rw [add_tsub_cancel_left]
    simp
  have hzero : ∀ (B m : Multiset Char), B ≤ m → ((B - m).card = 0) := by
    intro B m hle
    rw [tsub_eq_zero_of_le hle]
    simp
  cases h with
  | insert as bs c =>
      have hv : ((as ++ c :: bs : List Char) : Multiset Char) =
          ((as ++ bs : List Char) : Multiset Char) + {c} := by
        simp only [← Multiset.coe_add]
        rw [show ((c :: bs : List Char) : Multiset Char) = {c} + (bs : Multiset Char) from by
          simp [Multiset.singleton_add]]
        rw [← add_assoc, add_comm (as : Multiset Char) {c}, add_assoc]
        rw [add_comm ({c} : Multiset Char) _]
      rw [hv]
      have h1 := hzero ((as ++ bs : List Char) : Multiset Char)
        (((as ++ bs : List Char) : Multiset Char) + {c}) (by simp)
      have h2 := hsub ((as ++ bs : List Char) : Multiset Char) c
      omega
  | delete as bs c =>
      have hv : ((as ++ c :: bs : List Char) : Multiset Char) =
          ((as ++ bs : List Char) : Multiset Char) + {c} := by
        simp only [← Multiset.coe_add]
        rw [show ((c :: bs : List Char) : Multiset Char) = {c} + (bs : Multiset Char) from by
          simp [Multiset.singleton_add]]
        rw [← add_assoc, add_comm (as : Multiset Char) {c}, add_assoc]
        rw [add_comm ({c} : Multiset Char) _]
      rw [hv]
      have h1 := hzero ((as ++ bs : List Char) : Multiset Char)
        (((as ++ bs : List Char) : Multiset Char) + {c}) (by simp)
      have h2 := hsub ((as ++ bs : List Char) : Multiset Char) c
      omega
  | subst as bs c d =>
      have hu : ((as ++ c :: bs : List Char) : Multiset Char) =
          ((as ++ bs : List Char) : Multiset Char) + {c} := by
        simp only [← Multiset.coe_add]
        rw [show ((c :: bs : List Char) : Multiset Char) = {c} + (bs : Multiset Char) from by
          simp [Multiset.singleton_add]]
        rw [← add_assoc, add_comm (as : Multiset Char) {c}, add_assoc]
        rw [add_comm ({c} : Multiset Char) _]
      have hv : ((as ++ d :: bs : List Char) : Multiset Char) =
          ((as ++ bs : List Char) : Multiset Char) + {d} := by
        simp only [← Multiset.coe_add]
        rw [show ((d :: bs : List Char) : Multiset Char) = {d} + (bs : Multiset Char) from by
          simp [Multiset.singleton_add]]
        rw [← add_assoc, add_comm (as : Multiset Char) {d}, add_assoc]
        rw [add_comm ({d} : Multiset Char) _]
      rw [hu, hv]
      set B := ((as ++ bs : List Char) : Multiset Char)
      have h1 : (B + {c}) - (B + {d}) ≤ (B + {c}) - B := tsub_le_tsub_left (by simp) _
      have h2 : (B + {d}) - (B + {c}) ≤ (B + {d}) - B := tsub_le_tsub_left (by simp) _
      have c1 := Multiset.card_le_card h1
      have c2 := Multiset.card_le_card h2
      rw [add_tsub_cancel_left] at c1 c2
      simp only [Multiset.card_singleton] at c1 c2
      omega

theorem asym_editsTo {n : ℕ} {u v : List Char} (h : EditsTo n u v) :
    ((u : Multiset Char) - (v : Multiset Char)).card +
      ((v : Multiset Char) - (u : Multiset Char)).card ≤ 2 * n := by
  induction h with
  | refl xs => simp
  | step hs hrest ih =>
      rename_i m xs ys zs
      have h1 := asym_editStep hs
      have h2 := asym_triangle (xs : Multiset Char) (ys : Multiset Char) (zs : Multiset Char)
      omega

/-- The frequency lower bound the source relies on: the summed frequency
difference never exceeds twice the edit distance. -/
theorem freqDiffSum_le_two_lev (s t : List Char) :
    freqDiffSum s t ≤ 2 * lev s t := by
  rw [freqDiffSum_eq]
  exact asym_editsTo (editsTo_lev s t)

/-! #### Score bounds -/

theorem roundMono {x y : ℚ} (h : x ≤ y) : round x ≤ round y := by
  rw [round_eq, round_eq]
  exact Int.floor_mono (by linarith)

theorem simFormula_bounds {maxLength : ℕ} {d : ℤ} (hpos : 0 < maxLength)
    (hd0 : 0 ≤ d) (hdle : d ≤ (maxLength : ℤ)) :
    0 ≤ ((round ((((maxLength : ℚ) - (d : ℚ)) / (maxLength : ℚ)) * 10000) : ℤ) : ℚ) / 100 ∧
    ((round ((((maxLength : ℚ) - (d : ℚ)) / (maxLength : ℚ)) * 10000) : ℤ) : ℚ) / 100 ≤ 100 := by
  have hm : (0 : ℚ) < (maxLength : ℚ) := by exact_mod_cast hpos
  have hx0 : (0 : ℚ) ≤ (((maxLength : ℚ) - (d : ℚ)) / (maxLength : ℚ)) * 10000 := by
    apply mul_nonneg
    · apply div_nonneg
      · have : (d : ℚ) ≤ (maxLength : ℚ) := by exact_mod_cast hdle
        linarith
      · linarith
    · norm_num
  have hx1 : (((maxLength : ℚ) - (d : ℚ)) / (maxLength : ℚ)) * 10000 ≤ 10000 := by
    have hr : (((maxLength : ℚ) - (d : ℚ)) / (maxLength : ℚ)) ≤ 1 := by
      rw [div_le_one hm]
      have : (0 : ℚ) ≤ (d : ℚ) := by exact_mod_cast hd0
      linarith
    nlinarith
  constructor
  · apply div_nonneg _ (by norm_num)
    have h1 : (0 : ℤ) ≤ round ((((maxLength : ℚ) - (d : ℚ)) / (maxLength : ℚ)) * 10000) := by
      have := roundMono hx0
      simpa using this
    exact_mod_cast h1
  · rw [div_le_iff₀ (by norm_num : (0:ℚ) < 100)]
    have h1 : round ((((maxLength : ℚ) - (d : ℚ)) / (maxLength : ℚ)) * 10000) ≤ 10000 := by
      have := roundMono hx1
      simpa using this
    calc ((round ((((maxLength : ℚ) - (d : ℚ)) / (maxLength : ℚ)) * 10000) : ℤ) : ℚ)
        ≤ ((10000 : ℤ) : ℚ) := by exact_mod_cast h1
      _ = 100 * 100 := by norm_num

/-- Every value `calculateSimilarityWithThreshold` returns lies in `[0, 100]`. -/
theorem calcSimWT_bounds (str1 str2 : List Char) (ms : Option ℚ) :
    0 ≤ calculateSimilarityWithThreshold str1 str2 ms ∧
      calculateSimilarityWithThreshold str1 str2 ms ≤ 100 := by
  rw [calculateSimilarityWithThreshold]
  by_cases h1 : str1 = str2
  · rw [if_pos h1]; norm_num
  · rw [if_neg h1]
    by_cases h2 : str1.length = 0 ∧ str2.length = 0
    · rw [if_pos h2]; norm_num
    · rw [if_neg h2]
      by_cases h3 : str1.length = 0 ∨ str2.length = 0
      · rw [if_pos h3]; norm_num
      · rw [if_neg h3]
        push_neg at h3
        have hpos : 0 < max str1.length str2.length := by
          rcases Nat.pos_of_ne_zero h3.1 with h
          omega
        have hlevle : lev str1 str2 ≤ max str1.length str2.length := lev_le_max str1 str2
        cases ms with
        | none =>
            simp only [Option.map_none']
            rw [levWT_none_eq]
            exact simFormula_bounds hpos (by positivity) (by exact_mod_cast hlevle)
        | some msv =>
            simp only [Option.map_some']
            set M := max str1.length str2.length with hM
            set c := ⌊(M : ℚ) * (1 - msv / 100)⌋ with hc
            by_cases h4 : c < levenshteinDistanceWithThreshold str1 str2 (some c)
            · rw [if_pos h4]; norm_num
            · rw [if_neg h4]
              push_neg at h4
              rcases levWT_some_cases str1 str2 c with h5 | h5
              · rw [h5] at h4; omega
              · rw [h5]
                exact simFormula_bounds hpos (by positivity) (by exact_mod_cast hlevle)

/-! ### Data model (src/comparator.ts, src/functionExtractor.ts) -/

structure ExtractedFunction where
  name : String
  code : List Char
  normalizedCode : List Char
  filePath : String
  startLine : ℕ
  endLine : ℕ
deriving DecidableEq, Inhabited

structure FunctionReference where
  name : String
  filePath : String
  startLine : ℕ
  endLine : ℕ
deriving DecidableEq

structure SimilarityResult where
  function1 : FunctionReference
  function2 : FunctionReference
  similarityScore : ℚ
  normalizedScore : ℚ
  lines1 : ℤ
  lines2 : ℤ
deriving DecidableEq

structure ComparisonOptions where
  minSimilarity : ℚ
  minLines : ℕ
  normalize : Bool
  excludeSelf : Bool
deriving DecidableEq

/-- The worker's result record (src/worker.ts): global indices plus the
scores and line counts, resolved to references by the coordinator. -/
structure WorkerResult where
  idx1 : ℕ
  idx2 : ℕ
  normalizedScore : ℚ
  rawScore : ℚ
  lines1 : ℤ
  lines2 : ℤ
deriving DecidableEq

def linesOf (f : ExtractedFunction) : ℤ := (f.endLine : ℤ) - (f.startLine : ℤ) + 1

def mkRef (f : ExtractedFunction) : FunctionReference :=
  { name := f.name, filePath := f.filePath, startLine := f.startLine, endLine := f.endLine }

def textOf (normalize : Bool) (f : ExtractedFunction) : List Char :=
  if normalize then f.normalizedCode else f.code

/-! ### The pruning filter chain (src/comparator.ts filters 1-3,
src/worker.ts filters 1-3)

In filter 1, when both texts are empty the JS expression
`(minLength / maxLength) * 100` is `NaN` and the `<` comparison is
false, so the filter never rejects; the explicit `maxLength ≠ 0`
conjunct models that. -/

def ratioFilterRejects (ms : ℚ) (len1 len2 : ℕ) : Prop :=
  max len1 len2 ≠ 0 ∧ ((min len1 len2 : ℕ) : ℚ) / ((max len1 len2 : ℕ) : ℚ) * 100 < ms

def maxAllowedDiff (ms : ℚ) (len1 len2 : ℕ) : ℤ :=
  ⌊((max len1 len2 : ℕ) : ℚ) * (1 - ms / 100)⌋

def lengthFilterRejects (ms : ℚ) (len1 len2 : ℕ) : Prop :=
  maxAllowedDiff ms len1 len2 < ((((len1 : ℤ) - (len2 : ℤ)).natAbs : ℕ) : ℤ)

def freqFilterRejects (ms : ℚ) (norm1 norm2 : List Char) : Prop :=
  0 < ms ∧ failsFrequencyCheck norm1 norm2 (maxAllowedDiff ms norm1.length norm2.length) = true

instance (ms : ℚ) (len1 len2 : ℕ) : Decidable (ratioFilterRejects ms len1 len2) := by
  unfold ratioFilterRejects
  infer_instance

instance (ms : ℚ) (len1 len2 : ℕ) : Decidable (lengthFilterRejects ms len1 len2) := by
  unfold lengthFilterRejects
  infer_instance

instance (ms : ℚ) (norm1 norm2 : List Char) : Decidable (freqFilterRejects ms norm1 norm2) := by
  unfold freqFilterRejects
  infer_instance

/-! ### The pairwise chain and result construction

`comparePairCore` is the body of the inner `j` loop shared verbatim by
`FunctionComparator.compareAll` (src/comparator.ts, after its
excludeSelf check) and by the worker loop (src/worker.ts): filters 1-3,
the thresholded score, the `normalizedScore >= minSimilarity` test and
the result fields. -/

def comparePairCore (ms : ℚ) (normalize : Bool)
    (func1 func2 : ExtractedFunction) : Option SimilarityResult :=
  let norm1 := textOf normalize func1
  let norm2 := textOf normalize func2
  if ratioFilterRejects ms norm1.length norm2.length then none
  else if lengthFilterRejects ms norm1.length norm2.length then none
  else if freqFilterRejects ms norm1 norm2 then none
  else
    let normalizedScore := calculateSimilarityWithThreshold norm1 norm2 (some ms)
    if ms ≤ normalizedScore then
      some { function1 := mkRef func1, function2 := mkRef func2,
             similarityScore :=
               if normalize then
                 calculateSimilarityWithThreshold func1.code func2.code (some ms)
               else normalizedScore,
             normalizedScore := normalizedScore,
             lines1 := linesOf func1, lines2 := linesOf func2 }
    else none

/-- Inner-loop body of `compareAll`: the excludeSelf skip, then the
shared chain. -/
def compareAllPair (ms : ℚ) (normalize excludeSelf : Bool)
    (func1 func2 : ExtractedFunction) : Option SimilarityResult :=
  if excludeSelf = true ∧ func1.filePath = func2.filePath ∧
      func1.startLine = func2.startLine then none
  else comparePairCore ms normalize func1 func2

/-- Inner-loop body of the worker (src/worker.ts): same chain, no
excludeSelf check, records global indices instead of references. -/
def workerPair (ms : ℚ) (normalize : Bool) (i j : ℕ)
    (func1 func2 : ExtractedFunction) : Option WorkerResult :=
  let norm1 := textOf normalize func1
  let norm2 := textOf normalize func2
  if ratioFilterRejects ms norm1.length norm2.length then none
  else if lengthFilterRejects ms norm1.length norm2.length then none
  else if freqFilterRejects ms norm1 norm2 then none
  else
    let normalizedScore := calculateSimilarityWithThreshold norm1 norm2 (some ms)
    if ms ≤ normalizedScore then
      some { idx1 := i, idx2 := j,
             normalizedScore := normalizedScore,
             rawScore :=
               if normalize then
                 calculateSimilarityWithThreshold func1.code func2.code (some ms)
               else normalizedScore,
             lines1 := linesOf func1, lines2 := linesOf func2 }
    else none

/-! ### Stable descending sort

`results.sort((a, b) => b.normalizedScore - a.normalizedScore)` in
JavaScript is a stable sort by descending normalized score; any stable
sort computes the same list, modelled here by insertion sort that
places each element after all earlier elements with an equal or higher
score. -/

def insertDesc (r : SimilarityResult) : List SimilarityResult → List SimilarityResult
  | [] => [r]
  | x :: xs =>
      if r.normalizedScore ≤ x.normalizedScore then x :: insertDesc r xs
      else r :: x :: xs

def sortDesc (l : List SimilarityResult) : List SimilarityResult :=
  l.foldl (fun acc r => insertDesc r acc) []

/-! ### The drivers -/

/-- The minLines pre-filter of `compareAll` / `compareAllParallel`. -/
def minLinesFilter (functions : List ExtractedFunction) (minLines : ℕ) :
    List ExtractedFunction :=
  if 0 < minLines then functions.filter (fun f => (minLines : ℤ) ≤ linesOf f)
  else functions

/-- One row of the upper-triangle scan: fixed `i`, all `j` in `(i, N)`. -/
def pairRow (fs : List ExtractedFunction) (ms : ℚ) (normalize excludeSelf : Bool)
    (i : ℕ) : List SimilarityResult :=
  (List.range' (i + 1) (fs.length - (i + 1))).filterMap (fun j =>
    match fs[i]?, fs[j]? with
    | some f1, some f2 => compareAllPair ms normalize excludeSelf f1 f2
    | _, _ => none)

/-- `FunctionComparator.compareAll` (src/comparator.ts): minLines
pre-filter, upper-triangle scan, stable descending sort.  The progress
callback does not influence the results and is not modelled. -/
def compareAll (functions : List ExtractedFunction) (options : ComparisonOptions) :
    List SimilarityResult :=
  let fs := minLinesFilter functions options.minLines
  sortDesc ((List.range fs.length).flatMap
    (pairRow fs options.minSimilarity options.normalize options.excludeSelf))

/-- One row of the worker's scan (src/worker.ts inner loop). -/
def workerRow (fs : List ExtractedFunction) (ms : ℚ) (normalize : Bool)
    (i : ℕ) : List WorkerResult :=
  (List.range' (i + 1) (fs.length - (i + 1))).filterMap (fun j =>
    match fs[i]?, fs[j]? with
    | some f1, some f2 => workerPair ms normalize i j f1 f2
    | _, _ => none)

/-- The worker loop (src/worker.ts): rows `[startIdx, endIdx)`, each
against all later fragments. -/
def workerRun (fs : List ExtractedFunction) (ms : ℚ) (normalize : Bool)
    (startIdx endIdx : ℕ) : List WorkerResult :=
  (List.range' startIdx (endIdx - startIdx)).flatMap (workerRow fs ms normalize)

/-- The coordinator's merge step (src/comparatorParallel.ts): resolve
the worker's global indices back to fragment references. -/
def toSimilarityResult (fs : List ExtractedFunction) (r : WorkerResult) :
    SimilarityResult :=
  let func1 := fs.getD r.idx1 default
  let func2 := fs.getD r.idx2 default
  { function1 := mkRef func1, function2 := mkRef func2,
    similarityScore := r.rawScore, normalizedScore := r.normalizedScore,
    lines1 := r.lines1, lines2 := r.lines2 }

/-- `FunctionComparatorParallel.compareAllParallel`
(src/comparatorParallel.ts).  `numWorkers` stands for the
environment-dependent `Math.max(1, Math.min(os.cpus().length - 1, 8))`.
Fewer than 100 surviving fragments fall back to the sequential driver
on the already-filtered list.  Otherwise the row range is cut into
`numWorkers` contiguous chunks of size `Math.ceil(N / numWorkers)`;
workers whose start index is at or past `N` do no work (the source
`break`s before spawning them), and `Promise.all` returns the
per-worker result lists in worker order, which the coordinator
concatenates, resolves, and sorts. -/
def compareAllParallel (numWorkers : ℕ) (functions : List ExtractedFunction)
    (options : ComparisonOptions) : List SimilarityResult :=
  let fs := minLinesFilter functions options.minLines
  if fs.length < 100 then compareAll fs options
  else
    let chunkSize := (fs.length + numWorkers - 1) / numWorkers
    let merged := (List.range numWorkers).flatMap (fun w =>
      (workerRun fs options.minSimilarity options.normalize (w * chunkSize)
        (min ((w + 1) * chunkSize) fs.length)).map (toSimilarityResult fs))
    sortDesc merged

/-- `FunctionComparator.compareOne` (src/comparator.ts): one-vs-many,
unthresholded scorer, unconditional self skip, no pruning chain. -/
def compareOne (targetFunction : ExtractedFunction)
    (allFunctions : List ExtractedFunction) (options : ComparisonOptions) :
    List SimilarityResult :=
  if 0 < options.minLines ∧ linesOf targetFunction < (options.minLines : ℤ) then []
  else
    sortDesc (allFunctions.filterMap (fun func =>
      if 0 < options.minLines ∧ linesOf func < (options.minLines : ℤ) then none
      else if func.filePath = targetFunction.filePath ∧
          func.startLine = targetFunction.startLine then none
      else
        let normalizedScore :=
          if options.normalize then
            calculateSimilarity targetFunction.normalizedCode func.normalizedCode
          else calculateSimilarity targetFunction.code func.code
        let rawScore := calculateSimilarity targetFunction.code func.code
        if options.minSimilarity ≤ normalizedScore then
          some { function1 := mkRef targetFunction, function2 := mkRef func,
                 similarityScore := rawScore, normalizedScore := normalizedScore,
                 lines1 := linesOf targetFunction, lines2 := linesOf func }
        else none))

/-! ### Properties of the stable sort -/

/-- The descending key order used by the final sort. -/
def keyGe (a b : SimilarityResult) : Prop := b.normalizedScore ≤ a.normalizedScore

theorem mem_insertDesc {x r : SimilarityResult} {l : List SimilarityResult} :
    x ∈ insertDesc r l ↔ x = r ∨ x ∈ l := by
  induction l with
  | nil => simp [insertDesc]
  | cons y ys ih =>
      rw [insertDesc]
      by_cases h : r.normalizedScore ≤ y.normalizedScore
      · rw [if_pos h]
        simp only [List.mem_cons, ih]
        tauto
      · rw [if_neg h]
        simp

theorem mem_sortDesc {x : SimilarityResult} {l : List SimilarityResult} :
    x ∈ sortDesc l ↔ x ∈ l := by
  have hgen : ∀ (l acc : List SimilarityResult),
      (x ∈ l.foldl (fun acc r => insertDesc r acc) acc ↔ x ∈ acc ∨ x ∈ l) := by
    intro l
    induction l with
    | nil => intro acc; simp
    | cons y ys ih =>
        intro acc
        rw [List.foldl_cons, ih (insertDesc y acc), mem_insertDesc]
        simp only [List.mem_cons]
        tauto
  rw [sortDesc, hgen]
  simp

theorem insertDesc_ne_nil (r : SimilarityResult) (l : List SimilarityResult) :
    insertDesc r l ≠ [] := by
  cases l with
  | nil => simp [insertDesc]
  | cons y ys =>
      rw [insertDesc]
      by_cases h : r.normalizedScore ≤ y.normalizedScore
      · rw [if_pos h]; simp
      · rw [if_neg h]; simp

theorem sortDesc_nil : sortDesc [] = [] := rfl

theorem sortDesc_eq_nil_iff {l : List SimilarityResult} : sortDesc l = [] ↔ l = [] := by
  constructor
  · intro h
    cases l with
    | nil => rfl
    | cons y ys =>
        exfalso
        have : y ∈ sortDesc (y :: ys) := mem_sortDesc.mpr (by simp)
        rw [h] at this
        simp at this
  · intro h; rw [h]; rfl

theorem insertDesc_pairwise {r : SimilarityResult} {l : List SimilarityResult}
    (h : l.Pairwise keyGe) : (insertDesc r l).Pairwise keyGe := by
  induction l with
  | nil => simp [insertDesc]
  | cons y ys ih =>
      rw [insertDesc]
      rcases List.pairwise_cons.mp h with ⟨hy, hys⟩
      by_cases hc : r.normalizedScore ≤ y.normalizedScore
      · rw [if_pos hc]
        rw [List.pairwise_cons]
        constructor
        · intro z hz
          rcases mem_insertDesc.mp hz with hz | hz
          · subst hz; exact hc
          · exact hy z hz
        · exact ih hys
      · rw [if_neg hc]
        rw [List.pairwise_cons]
        constructor
        · intro z hz
          rcases List.mem_cons.mp hz with hz | hz
          · subst hz
            exact le_of_lt (lt_of_not_le hc)
          · exact le_trans (hy z hz) (le_of_lt (lt_of_not_le hc))
        · exact h

/-- Stability: inserting below all equal-or-greater keys keeps the
relative order of equal keys; on sorted input, filtering a score class
appends the new element at the end of its class. -/
theorem insertDesc_filter {r : SimilarityResult} {l : List SimilarityResult}
    (h : l.Pairwise keyGe) (s : ℚ) :
    (insertDesc r l).filter (fun a => decide (a.normalizedScore = s)) =
      if r.normalizedScore = s then
        l.filter (fun a => decide (a.normalizedScore = s)) ++ [r]
      else l.filter (fun a => decide (a.normalizedScore = s)) := by
  induction l with
  | nil =>
      by_cases hr : r.normalizedScore = s
      · rw [if_pos hr]; simp [insertDesc, hr]
      · rw [if_neg hr]; simp [insertDesc, hr]
  | cons y ys ih =>
      rcases List.pairwise_cons.mp h with ⟨hy, hys⟩
      rw [insertDesc]
      by_cases hc : r.normalizedScore ≤ y.normalizedScore
      · rw [if_pos hc]
        rw [List.filter_cons]
        by_cases hys2 : y.normalizedScore = s
        · rw [if_pos (by simpa using hys2)]
          rw [ih hys]
          by_cases hr : r.normalizedScore = s
          · rw [if_pos hr, if_pos hr, List.filter_cons,
              if_pos (by simpa using hys2)]
            simp
          · rw [if_neg hr, if_neg hr, List.filter_cons,
              if_pos (by simpa using hys2)]
        · rw [if_neg (by simpa using hys2)]
          rw [ih hys]
          by_cases hr : r.normalizedScore = s
          · rw [if_pos hr, if_pos hr, List.filter_cons,
              if_neg (by simpa using hys2)]
          · rw [if_neg hr, if_neg hr, List.filter_cons,
              if_neg (by simpa using hys2)]
      · rw [if_neg hc]
        have hlt : y.normalizedScore < r.normalizedScore := lt_of_not_le hc
        by_cases hr : r.normalizedScore = s
        · rw [if_pos hr]
          have hfe : (y :: ys).filter (fun a => decide (a.normalizedScore = s)) = [] := by
            rw [List.filter_eq_nil_iff]
            intro z hz
            simp only [decide_eq_true_eq]
            intro hzs
            have hzle : z.normalizedScore ≤ y.normalizedScore := by
              rcases List.mem_cons.mp hz with hz | hz
              · subst hz; exact le_refl _
              · exact hy z hz
            rw [hzs] at hzle
            linarith [hr.le, hr.ge]
          rw [List.filter_cons, hfe]
          rw [if_pos (by simpa using hr)]
          simp
        · rw [if_neg hr]
          rw [List.filter_cons, if_neg (by simpa using hr)]

/-- The stable sort: output is sorted descending, and each score class
keeps the input's relative order (expressed by filtering). -/
theorem sortDesc_spec (l : List SimilarityResult) :
    (sortDesc l).Pairwise keyGe ∧
      ∀ s : ℚ, (sortDesc l).filter (fun a => decide (a.normalizedScore = s)) =
        l.filter (fun a => decide (a.normalizedScore = s)) := by
  have hgen : ∀ (l acc : List SimilarityResult), acc.Pairwise keyGe →
      (l.foldl (fun acc r => insertDesc r acc) acc).Pairwise keyGe ∧
      ∀ s : ℚ, (l.foldl (fun acc r => insertDesc r acc) acc).filter
          (fun a => decide (a.normalizedScore = s)) =
        acc.filter (fun a => decide (a.normalizedScore = s)) ++
          l.filter (fun a => decide (a.normalizedScore = s)) := by
    intro l
    induction l with
    | nil =>
        intro acc hacc
        refine ⟨hacc, fun s => ?_⟩
        simp
    | cons y l ih =>
        intro acc hacc
        rw [List.foldl_cons]
        rcases ih (insertDesc y acc) (insertDesc_pairwise hacc) with ⟨hp, hf⟩
        refine ⟨hp, fun s => ?_⟩
        rw [hf s, insertDesc_filter hacc s, List.filter_cons]
        by_cases hys : y.normalizedScore = s
        · rw [if_pos hys, if_pos (by simpa using hys)]
          simp
        · rw [if_neg hys, if_neg (by simpa using hys)]
  rcases hgen l [] (by simp) with ⟨hp, hf⟩
  exact ⟨hp, fun s => by simpa using hf s⟩

/-! ### Equivalence of the worker chain and the driver chain -/

theorem flatMap_congr {α β : Type} {l : List α} {f g : α → List β}
    (h : ∀ a ∈ l, f a = g a) : l.flatMap f = l.flatMap g := by
  induction l with
  | nil => simp
  | cons x xs ih =>
      simp only [List.flatMap_cons]
      rw [h x (by simp), ih (fun a ha => h a (by simp [ha]))]

theorem getD_of_getElem? {fs : List ExtractedFunction} {i : ℕ} {f : ExtractedFunction}
    (h : fs[i]? = some f) : fs.getD i default = f := by
  rw [List.getD_eq_getElem?_getD, h]
  rfl

/-- Resolving a worker record to references gives exactly what the
sequential chain builds for the same pair. -/
theorem workerPair_map_toResult (fs : List ExtractedFunction) (ms : ℚ) (nz : Bool)
    (i j : ℕ) (f1 f2 : ExtractedFunction)
    (hi : fs[i]? = some f1) (hj : fs[j]? = some f2) :
    (workerPair ms nz i j f1 f2).map (toSimilarityResult fs) =
      comparePairCore ms nz f1 f2 := by
  simp only [workerPair, comparePairCore]
  split_ifs <;>
    simp [toSimilarityResult, hi, hj]

theorem compareAllPair_no_self (ms : ℚ) (nz ex : Bool) (f1 f2 : ExtractedFunction)
    (h : ¬ (ex = true ∧ f1.filePath = f2.filePath ∧ f1.startLine = f2.startLine)) :
    compareAllPair ms nz ex f1 f2 = comparePairCore ms nz f1 f2 := by
  rw [compareAllPair, if_neg h]

/-- A worker row, resolved, equals the sequential row when the
excludeSelf skip cannot fire. -/
theorem workerRow_map_eq (fs : List ExtractedFunction) (ms : ℚ) (nz ex : Bool)
    (i : ℕ) (hi : i < fs.length)
    (hok : ex = false ∨ fs.Pairwise
      (fun f g => ¬ (f.filePath = g.filePath ∧ f.startLine = g.startLine))) :
    (workerRow fs ms nz i).map (toSimilarityResult fs) = pairRow fs ms nz ex i := by
  rw [workerRow, pairRow, List.map_filterMap]
  apply List.filterMap_congr
  intro j hj
  have hjr : i + 1 ≤ j ∧ j < i + 1 + (fs.length - (i + 1)) := by
    have := List.mem_range'_1.mp hj
    omega
  have hjlen : j < fs.length := by omega
  have hf1 : fs[i]? = some fs[i] := List.getElem?_eq_getElem hi
  have hf2 : fs[j]? = some fs[j] := List.getElem?_eq_getElem hjlen
  rw [hf1, hf2]
  show (workerPair ms nz i j fs[i] fs[j]).map (toSimilarityResult fs) =
    compareAllPair ms nz ex fs[i] fs[j]
  have hno : ¬ (ex = true ∧ fs[i].filePath = fs[j].filePath ∧
      fs[i].startLine = fs[j].startLine) := by
    rcases hok with hok | hok
    · rw [hok]; simp
    · intro hcon
      have hij : i ≠ j := by omega
      have := (List.pairwise_iff_get.mp hok) ⟨i, hi⟩ ⟨j, hjlen⟩ (by simpa using by omega)
      simp only [List.get_eq_getElem] at this
      exact this ⟨hcon.2.1, hcon.2.2⟩
  rw [workerPair_map_toResult fs ms nz i j fs[i] fs[j] hf1 hf2]
  rw [compareAllPair_no_self ms nz ex _ _ hno]

/-! ### The chunk decomposition covers the row range exactly once -/

theorem chunks_join (cs N : ℕ) :
    ∀ W, (List.range W).flatMap
        (fun w => List.range' (w * cs) (min ((w + 1) * cs) N - w * cs)) =
      List.range' 0 (min (W * cs) N) := by
  intro W
  induction W with
  | zero => simp
  | succ W ih =>
      rw [List.range_succ, List.flatMap_append, ih]
      simp only [List.flatMap_cons, List.flatMap_nil, List.append_nil]
      have hmul : (W + 1) * cs = W * cs + cs := by ring
      by_cases h : N ≤ W * cs
      · have h1 : min (W * cs) N = N := by omega
        have h2 : min ((W + 1) * cs) N = N := by omega
        rw [h1, h2, show N - W * cs = 0 from by omega]
        simp
      · have h1 : min (W * cs) N = W * cs := by omega
        rw [h1]
        have := List.range'_append 0 (W * cs) (min ((W + 1) * cs) N - W * cs) 1
        simp only [one_mul, Nat.zero_add] at this
        rw [this]
        congr 1
        omega

theorem ceil_div_covers (N W : ℕ) (hW : 1 ≤ W) : N ≤ W * ((N + W - 1) / W) := by
  have h := Nat.div_add_mod (N + W - 1) W
  have hr : (N + W - 1) % W < W := Nat.mod_lt _ (by omega)
  omega

theorem minLinesFilter_idem (fns : List ExtractedFunction) (ml : ℕ) :
    minLinesFilter (minLinesFilter fns ml) ml = minLinesFilter fns ml := by
  rw [minLinesFilter, minLinesFilter]
  by_cases h : 0 < ml
  · rw [if_pos h, if_pos h, List.filter_filter]
    apply List.filter_congr
    intro f _
    simp
  · rw [if_neg h, if_neg h]

theorem compareAll_def (fns : List ExtractedFunction) (opts : ComparisonOptions) :
    compareAll fns opts = sortDesc
      ((List.range (minLinesFilter fns opts.minLines).length).flatMap
        (pairRow (minLinesFilter fns opts.minLines) opts.minSimilarity
          opts.normalize opts.excludeSelf)) := by
  simp only [compareAll]

theorem compareAllParallel_small (W : ℕ) (fns : List ExtractedFunction)
    (opts : ComparisonOptions) (h : (minLinesFilter fns opts.minLines).length < 100) :
    compareAllParallel W fns opts = compareAll (minLinesFilter fns opts.minLines) opts := by
  simp only [compareAllParallel]
  rw [if_pos h]

theorem compareAllParallel_big (W : ℕ) (fns : List ExtractedFunction)
    (opts : ComparisonOptions) (h : ¬ (minLinesFilter fns opts.minLines).length < 100) :
    compareAllParallel W fns opts = sortDesc ((List.range W).flatMap (fun w =>
      (workerRun (minLinesFilter fns opts.minLines) opts.minSimilarity opts.normalize
        (w * (((minLinesFilter fns opts.minLines).length + W - 1) / W))
        (min ((w + 1) * (((minLinesFilter fns opts.minLines).length + W - 1) / W))
          (minLinesFilter fns opts.minLines).length)).map
        (toSimilarityResult (minLinesFilter fns opts.minLines)))) := by
  simp only [compareAllParallel]
  rw [if_neg h]

/-- The merged worker lists, resolved, are the full-row-range worker
scan: the chunking is invisible in the result, whatever the worker
count. -/
theorem merged_eq_full (fs : List ExtractedFunction) (ms : ℚ) (nz : Bool)
    (W : ℕ) (hW : 1 ≤ W) :
    (List.range W).flatMap (fun w =>
      (workerRun fs ms nz (w * ((fs.length + W - 1) / W))
        (min ((w + 1) * ((fs.length + W - 1) / W)) fs.length)).map
        (toSimilarityResult fs)) =
    (List.range fs.length).flatMap
      (fun i => (workerRow fs ms nz i).map (toSimilarityResult fs)) := by
  set N := fs.length with hN
  set cs := (N + W - 1) / W with hcs
  have hcover : N ≤ W * cs := ceil_div_covers N W hW
  calc (List.range W).flatMap (fun w =>
        (workerRun fs ms nz (w * cs) (min ((w + 1) * cs) N)).map (toSimilarityResult fs))
      = (List.range W).flatMap (fun w =>
          (List.range' (w * cs) (min ((w + 1) * cs) N - w * cs)).flatMap
            (fun i => (workerRow fs ms nz i).map (toSimilarityResult fs))) := by
        apply flatMap_congr
        intro w _
        rw [workerRun, List.map_flatMap]
    _ = ((List.range W).flatMap
          (fun w => List.range' (w * cs) (min ((w + 1) * cs) N - w * cs))).flatMap
            (fun i => (workerRow fs ms nz i).map (toSimilarityResult fs)) := by
        rw [List.flatMap_assoc]
    _ = (List.range N).flatMap
          (fun i => (workerRow fs ms nz i).map (toSimilarityResult fs)) := by
        rw [chunks_join cs N W]
        rw [min_eq_right hcover, List.range_eq_range']

/-- The merged worker lists, resolved, are exactly the sequential scan
of the full row range, independent of the worker count. -/
theorem merged_eq_gen (fs : List ExtractedFunction) (ms : ℚ) (nz ex : Bool)
    (W : ℕ) (hW : 1 ≤ W)
    (hok : ex = false ∨ fs.Pairwise
      (fun f g => ¬ (f.filePath = g.filePath ∧ f.startLine = g.startLine))) :
    (List.range W).flatMap (fun w =>
      (workerRun fs ms nz (w * ((fs.length + W - 1) / W))
        (min ((w + 1) * ((fs.length + W - 1) / W)) fs.length)).map
        (toSimilarityResult fs)) =
    (List.range fs.length).flatMap (pairRow fs ms nz ex) := by
  rw [merged_eq_full fs ms nz W hW]
  apply flatMap_congr
  intro i hi
  have hilt : i < fs.length := List.mem_range.mp hi
  exact workerRow_map_eq fs ms nz ex i hilt hok

/-- Core parity: with at least one worker, the parallel merge visits
exactly the pairs of the sequential scan, in the same order, as long as
the worker path's missing excludeSelf check cannot fire. -/
theorem compareAllParallel_eq_compareAll (W : ℕ) (fns : List ExtractedFunction)
    (opts : ComparisonOptions) (hW : 1 ≤ W)
    (hok : opts.excludeSelf = false ∨ (minLinesFilter fns opts.minLines).Pairwise
      (fun f g => ¬ (f.filePath = g.filePath ∧ f.startLine = g.startLine))) :
    compareAllParallel W fns opts = compareAll fns opts := by
  by_cases h : (minLinesFilter fns opts.minLines).length < 100
  · rw [compareAllParallel_small W fns opts h]
    rw [compareAll_def fns opts, compareAll_def, minLinesFilter_idem]
  · rw [compareAllParallel_big W fns opts h, compareAll_def]
    congr 1
    exact merged_eq_gen (minLinesFilter fns opts.minLines) opts.minSimilarity
      opts.normalize opts.excludeSelf W hW hok

/-! ### A concrete fragment set separating the sequential and parallel
paths

100 fragments: two identity-sharing copies (same file path and start
line) of a one-character function, and 98 fragments of pairwise
different lengths.  With `minSimilarity = 100` every pair except the
identity-sharing one is pruned by the length filters, so the sequential
driver (which skips the identity-sharing pair) returns nothing, while
the worker path (which has no excludeSelf check) reports that pair. -/

def dupFrag : ExtractedFunction :=
  { name := "g", code := ['a'], normalizedCode := ['a'],
    filePath := "f", startLine := 1, endLine := 1 }

def otherFrag (k : ℕ) : ExtractedFunction :=
  { name := "h", code := List.replicate (k + 2) 'b',
    normalizedCode := List.replicate (k + 2) 'b',
    filePath := "h", startLine := k + 2, endLine := k + 2 }

def frags100 : List ExtractedFunction :=
  dupFrag :: dupFrag :: (List.range 98).map otherFrag

def opts100 : ComparisonOptions :=
  { minSimilarity := 100, minLines := 0, normalize := false, excludeSelf := true }

theorem frags100_length : frags100.length = 100 := by
  simp [frags100]

theorem frags100_filter : minLinesFilter frags100 opts100.minLines = frags100 := rfl

theorem frags100_get0 : frags100[0]? = some dupFrag := rfl

theorem frags100_get1 : frags100[1]? = some dupFrag := rfl

theorem frags100_getk (k : ℕ) (h : k < 98) : frags100[k + 2]? = some (otherFrag k) := by
  show (dupFrag :: dupFrag :: (List.range 98).map otherFrag)[k + 2]? = some (otherFrag k)
  rw [show k + 2 = (k + 1) + 1 from rfl, List.getElem?_cons_succ, List.getElem?_cons_succ,
    List.getElem?_map, List.getElem?_range h]
  rfl

/-- With threshold 100, any length difference kills a pair in filter 1. -/
theorem comparePairCore_reject_len (f1 f2 : ExtractedFunction)
    (h : f1.code.length ≠ f2.code.length) :
    comparePairCore 100 false f1 f2 = none := by
  have htext : textOf false f1 = f1.code ∧ textOf false f2 = f2.code := by
    constructor <;> simp [textOf]
  simp only [comparePairCore, htext.1, htext.2]
  rw [if_pos]
  rw [ratioFilterRejects]
  constructor
  · omega
  · have hmlt : min f1.code.length f2.code.length < max f1.code.length f2.code.length := by
      omega
    have hMpos : (0 : ℚ) < ((max f1.code.length f2.code.length : ℕ) : ℚ) := by
      have : 0 < max f1.code.length f2.code.length := by omega
      exact_mod_cast this
    have hdiv : ((min f1.code.length f2.code.length : ℕ) : ℚ) /
        ((max f1.code.length f2.code.length : ℕ) : ℚ) < 1 := by
      rw [div_lt_one hMpos]
      exact_mod_cast hmlt
    linarith

def wr01 : WorkerResult :=
  { idx1 := 0, idx2 := 1, normalizedScore := 100, rawScore := 100,
    lines1 := 1, lines2 := 1 }

theorem workerPair_dup :
    workerPair 100 false 0 1 dupFrag dupFrag = some wr01 := by
  decide

/-- The sequential driver returns nothing on the separating set. -/
theorem compareAll_frags100 : compareAll frags100 opts100 = [] := by
  rw [compareAll_def, frags100_filter, frags100_length, sortDesc_eq_nil_iff,
    List.flatMap_eq_nil_iff]
  intro i hi
  have hilt : i < 100 := List.mem_range.mp hi
  rw [pairRow, frags100_length, List.filterMap_eq_nil_iff]
  intro j hj
  have hjr : i + 1 ≤ j ∧ j < 100 := by
    have := List.mem_range'_1.mp hj
    omega
  match i, hilt with
  | 0, _ =>
      match j, hjr with
      | 1, _ =>
          rw [frags100_get0, frags100_get1]
          show compareAllPair 100 false true dupFrag dupFrag = none
          rw [compareAllPair, if_pos]
          exact ⟨rfl, rfl, rfl⟩
      | (j2 + 2), hjr =>
          rw [frags100_get0, frags100_getk j2 (by omega)]
          show compareAllPair 100 false true dupFrag (otherFrag j2) = none
          rw [compareAllPair]
          split_ifs with hs
          · rfl
          · apply comparePairCore_reject_len
            simp [dupFrag, otherFrag]
  | 1, _ =>
      match j, hjr with
      | (j2 + 2), hjr =>
          rw [frags100_get1, frags100_getk j2 (by omega)]
          show compareAllPair 100 false true dupFrag (otherFrag j2) = none
          rw [compareAllPair]
          split_ifs with hs
          · rfl
          · apply comparePairCore_reject_len
            simp [dupFrag, otherFrag]
  | (i2 + 2), hilt =>
      match j, hjr with
      | (j2 + 2), hjr =>
          rw [frags100_getk i2 (by omega), frags100_getk j2 (by omega)]
          show compareAllPair 100 false true (otherFrag i2) (otherFrag j2) = none
          rw [compareAllPair]
          split_ifs with hs
          · rfl
          · apply comparePairCore_reject_len
            simp only [otherFrag, List.length_replicate]
            omega

/-- The parallel path emits the identity-sharing pair on the same set. -/
theorem parallel_frags100_mem :
    ∃ r ∈ compareAllParallel 4 frags100 opts100,
      r.function1.filePath = r.function2.filePath ∧
        r.function1.startLine = r.function2.startLine := by
  have hbig : ¬ (minLinesFilter frags100 opts100.minLines).length < 100 := by
    rw [frags100_filter, frags100_length]
    omega
  refine ⟨toSimilarityResult frags100 wr01, ?_, by decide⟩
  rw [compareAllParallel_big 4 frags100 opts100 hbig, frags100_filter]
  rw [mem_sortDesc, List.mem_flatMap]
  refine ⟨0, by decide, ?_⟩
  rw [frags100_length]
  rw [List.mem_map]
  refine ⟨wr01, ?_, rfl⟩
  rw [workerRun, List.mem_flatMap]
  refine ⟨0, ?_, ?_⟩
  · rw [List.mem_range'_1]
    constructor
    · omega
    · show 0 < 0 * ((100 + 4 - 1) / 4) + (min ((0 + 1) * ((100 + 4 - 1) / 4)) 100 - 0 * ((100 + 4 - 1) / 4))
      decide
  · rw [workerRow, frags100_length, List.mem_filterMap]
    refine ⟨1, ?_, ?_⟩
    · rw [List.mem_range'_1]
      omega
    · rw [frags100_get0, frags100_get1]
      show workerPair 100 false 0 1 dupFrag dupFrag = some _
      exact workerPair_dup

/-! ### Dissecting emitted results -/

theorem comparePairCore_some_fields {ms : ℚ} {nz : Bool} {f1 f2 : ExtractedFunction}
    {r : SimilarityResult} (h : comparePairCore ms nz f1 f2 = some r) :
    r.function1 = mkRef f1 ∧ r.function2 = mkRef f2 ∧
    r.normalizedScore =
      calculateSimilarityWithThreshold (textOf nz f1) (textOf nz f2) (some ms) ∧
    ms ≤ r.normalizedScore ∧ r.lines1 = linesOf f1 ∧ r.lines2 = linesOf f2 := by
  simp only [comparePairCore] at h
  split_ifs at h with h1 h2 h3 h4 h5 <;>
    first
      | exact Option.noConfusion h
      | (rw [Option.some.injEq] at h
         subst h
         exact ⟨rfl, rfl, rfl, h4, rfl, rfl⟩)

theorem compareAllPair_some_fields {ms : ℚ} {nz ex : Bool} {f1 f2 : ExtractedFunction}
    {r : SimilarityResult} (h : compareAllPair ms nz ex f1 f2 = some r) :
    (ex = true → ¬ (f1.filePath = f2.filePath ∧ f1.startLine = f2.startLine)) ∧
    comparePairCore ms nz f1 f2 = some r := by
  rw [compareAllPair] at h
  by_cases hs : ex = true ∧ f1.filePath = f2.filePath ∧ f1.startLine = f2.startLine
  · rw [if_pos hs] at h
    exact absurd h (by simp)
  · rw [if_neg hs] at h
    exact ⟨fun hex hcon => hs ⟨hex, hcon⟩, h⟩

theorem mem_compareAll {fns : List ExtractedFunction} {opts : ComparisonOptions}
    {r : SimilarityResult} (h : r ∈ compareAll fns opts) :
    ∃ (i j : ℕ) (f1 f2 : ExtractedFunction), i < j ∧
      (minLinesFilter fns opts.minLines)[i]? = some f1 ∧
      (minLinesFilter fns opts.minLines)[j]? = some f2 ∧
      compareAllPair opts.minSimilarity opts.normalize opts.excludeSelf f1 f2 = some r := by
  rw [compareAll_def, mem_sortDesc, List.mem_flatMap] at h
  obtain ⟨i, hi, hrow⟩ := h
  have hilt : i < (minLinesFilter fns opts.minLines).length := List.mem_range.mp hi
  rw [pairRow, List.mem_filterMap] at hrow
  obtain ⟨j, hj, hval⟩ := hrow
  have hjb := List.mem_range'_1.mp hj
  have hjlt : j < (minLinesFilter fns opts.minLines).length := by omega
  have hf1 := List.getElem?_eq_getElem hilt
  have hf2 := List.getElem?_eq_getElem hjlt
  rw [hf1, hf2] at hval
  refine ⟨i, j, _, _, by omega, hf1, hf2, ?_⟩
  exact hval

theorem mem_compareAllParallel {W : ℕ} {fns : List ExtractedFunction}
    {opts : ComparisonOptions} {r : SimilarityResult}
    (h : r ∈ compareAllParallel W fns opts) :
    ∃ (i j : ℕ) (f1 f2 : ExtractedFunction), i < j ∧
      (minLinesFilter fns opts.minLines)[i]? = some f1 ∧
      (minLinesFilter fns opts.minLines)[j]? = some f2 ∧
      (compareAllPair opts.minSimilarity opts.normalize opts.excludeSelf f1 f2 = some r ∨
        comparePairCore opts.minSimilarity opts.normalize f1 f2 = some r) := by
  by_cases hsm : (minLinesFilter fns opts.minLines).length < 100
  · rw [compareAllParallel_small W fns opts hsm] at h
    obtain ⟨i, j, f1, f2, hij, h1, h2, h3⟩ := mem_compareAll h
    rw [minLinesFilter_idem] at h1 h2
    exact ⟨i, j, f1, f2, hij, h1, h2, Or.inl h3⟩
  · rw [compareAllParallel_big W fns opts hsm, mem_sortDesc, List.mem_flatMap] at h
    obtain ⟨w, hw, hmem⟩ := h
    rw [List.mem_map] at hmem
    obtain ⟨wr, hwr, hres⟩ := hmem
    rw [workerRun, List.mem_flatMap] at hwr
    obtain ⟨i, hi, hrow⟩ := hwr
    have hib := List.mem_range'_1.mp hi
    have hmle := min_le_right
      ((w + 1) * (((minLinesFilter fns opts.minLines).length + W - 1) / W))
      (minLinesFilter fns opts.minLines).length
    have hilt : i < (minLinesFilter fns opts.minLines).length := by omega
    rw [workerRow, List.mem_filterMap] at hrow
    obtain ⟨j, hj, hval⟩ := hrow
    have hjb := List.mem_range'_1.mp hj
    have hjlt : j < (minLinesFilter fns opts.minLines).length := by omega
    have hf1 := List.getElem?_eq_getElem hilt
    have hf2 := List.getElem?_eq_getElem hjlt
    rw [hf1, hf2] at hval
    have hval2 : workerPair opts.minSimilarity opts.normalize i j
        (minLinesFilter fns opts.minLines)[i] (minLinesFilter fns opts.minLines)[j] =
        some wr := hval
    have hmap := workerPair_map_toResult (minLinesFilter fns opts.minLines)
      opts.minSimilarity opts.normalize i j _ _ hf1 hf2
    rw [hval2] at hmap
    refine ⟨i, j, _, _, by omega, hf1, hf2, Or.inr ?_⟩
    rw [← hmap]
    simp [hres]

/-! ### The unrounded score and soundness of the filter chain -/

/-- The similarity percentage before the 2-decimal rounding: the pruning
filters are sound for this quantity (and hence for every score the
rounded scorer can report that does not exceed it). -/
def rawSimilarity (a b : List Char) : ℚ :=
  if a = b then 100
  else if a.length = 0 ∧ b.length = 0 then 100
  else if a.length = 0 ∨ b.length = 0 then 0
  else (((max a.length b.length : ℕ) : ℚ) - (lev a b : ℚ)) /
    ((max a.length b.length : ℕ) : ℚ) * 100

theorem failsFrequencyCheck_iff (a b : List Char) (c : ℤ) :
    failsFrequencyCheck a b c = true ↔ (c : ℚ) < (freqDiffSum a b : ℚ) / 2 := by
  rw [failsFrequencyCheck]
  simp [gt_iff_lt]

theorem freqDiffSum_self (a : List Char) : freqDiffSum a a = 0 := by
  rw [freqDiffSum_eq]
  simp

theorem maxAllowedDiff_nonneg (ms : ℚ) (l1 l2 : ℕ) (h : ms ≤ 100) :
    0 ≤ maxAllowedDiff ms l1 l2 := by
  rw [maxAllowedDiff]
  apply Int.floor_nonneg.mpr
  apply mul_nonneg
  · positivity
  · linarith

/-- Soundness of the pruning chain against the unrounded score. -/
theorem filters_sound (a b : List Char) (ms : ℚ) (h0 : 0 ≤ ms) (h100 : ms ≤ 100)
    (hscore : ms ≤ rawSimilarity a b) :
    ¬ ratioFilterRejects ms a.length b.length ∧
    ¬ lengthFilterRejects ms a.length b.length ∧
    ¬ freqFilterRejects ms a b := by
  have hmad0 : 0 ≤ maxAllowedDiff ms a.length b.length := maxAllowedDiff_nonneg ms _ _ h100
  by_cases hab : a = b
  · subst hab
    refine ⟨?_, ?_, ?_⟩
    · rintro ⟨hne, hlt⟩
      rw [min_self, max_self] at hlt
      rw [max_self] at hne
      have : ((a.length : ℕ) : ℚ) / ((a.length : ℕ) : ℚ) = 1 := by
        apply div_self
        exact_mod_cast hne
      rw [this] at hlt
      linarith
    · rw [lengthFilterRejects]
      simp only [sub_self, Int.natAbs_zero]
      omega
    · rintro ⟨hms, hfc⟩
      rw [failsFrequencyCheck_iff, freqDiffSum_self] at hfc
      simp only [Nat.cast_zero, zero_div] at hfc
      have : ((maxAllowedDiff ms a.length a.length : ℤ) : ℚ) < 0 := hfc
      have h2 : (0 : ℚ) ≤ ((maxAllowedDiff ms a.length a.length : ℤ) : ℚ) := by
        exact_mod_cast hmad0
      linarith
  · rw [rawSimilarity, if_neg hab] at hscore
    by_cases hboth : a.length = 0 ∧ b.length = 0
    · exfalso
      apply hab
      rw [List.length_eq_zero.mp hboth.1, List.length_eq_zero.mp hboth.2]
    · rw [if_neg hboth] at hscore
      by_cases hone : a.length = 0 ∨ b.length = 0
      · rw [if_pos hone] at hscore
        have hms0 : ms = 0 := le_antisymm hscore h0
        subst hms0
        refine ⟨?_, ?_, ?_⟩
        · rintro ⟨hne, hlt⟩
          have hmin : min a.length b.length = 0 := by omega
          rw [hmin] at hlt
          simp at hlt
        · rw [lengthFilterRejects, maxAllowedDiff]
          simp only [zero_div, sub_zero, mul_one, Int.floor_natCast]
          omega
        · rintro ⟨hms, _⟩
          exact lt_irrefl _ hms
      · rw [if_neg hone] at hscore
        push_neg at hone
        have hMpos : 0 < max a.length b.length := by omega
        have hMq : (0 : ℚ) < ((max a.length b.length : ℕ) : ℚ) := by exact_mod_cast hMpos
        set M := max a.length b.length with hM
        set d := lev a b with hd
        have hlb := lev_length_lb a b
        have hdm : ((a.length : ℤ) - (b.length : ℤ)).natAbs = M - min a.length b.length := by
          rw [hM]
          omega
        have hdlb : M - min a.length b.length ≤ d := by
          rw [← hdm]
          exact hlb
        -- ms ≤ (M - d)/M * 100  ⇒  d ≤ M (1 - ms/100)
        have hkey : (d : ℚ) ≤ ((M : ℕ) : ℚ) * (1 - ms / 100) := by
          have h1 : ms * ((M : ℕ) : ℚ) ≤ (((M : ℕ) : ℚ) - (d : ℚ)) / ((M : ℕ) : ℚ) * 100 *
              ((M : ℕ) : ℚ) := mul_le_mul_of_nonneg_right hscore (le_of_lt hMq)
          have h2 : (((M : ℕ) : ℚ) - (d : ℚ)) / ((M : ℕ) : ℚ) * 100 * ((M : ℕ) : ℚ) =
              (((M : ℕ) : ℚ) - (d : ℚ)) * 100 := by
            field_simp
          rw [h2] at h1
          nlinarith
        have hdmad : (d : ℤ) ≤ maxAllowedDiff ms a.length b.length := by
          rw [maxAllowedDiff]
          apply Int.le_floor.mpr
          exact_mod_cast hkey
        refine ⟨?_, ?_, ?_⟩
        · rintro ⟨hne, hlt⟩
          have hmge : ((M : ℕ) : ℚ) - (d : ℚ) ≤ ((min a.length b.length : ℕ) : ℚ) := by
            have : ((M - min a.length b.length : ℕ) : ℚ) ≤ (d : ℚ) := by
              exact_mod_cast hdlb
            push_cast at this
            have hmle : min a.length b.length ≤ M := by omega
            have : ((M : ℕ) : ℚ) - ((min a.length b.length : ℕ) : ℚ) ≤ (d : ℚ) := by
              have hc : ((M - min a.length b.length : ℕ) : ℚ) =
                  ((M : ℕ) : ℚ) - ((min a.length b.length : ℕ) : ℚ) := by
                push_cast [hmle]
                ring
              linarith [hc ▸ this]
            linarith
          have hratio : (((M : ℕ) : ℚ) - (d : ℚ)) / ((M : ℕ) : ℚ) * 100 ≤
              ((min a.length b.length : ℕ) : ℚ) / ((M : ℕ) : ℚ) * 100 := by
            apply mul_le_mul_of_nonneg_right _ (by norm_num : (0:ℚ) ≤ 100)
            gcongr
          linarith
        · rw [lengthFilterRejects]
          push_neg
          calc ((((a.length : ℤ) - (b.length : ℤ)).natAbs : ℕ) : ℤ) ≤ (d : ℤ) := by
                exact_mod_cast hlb
            _ ≤ maxAllowedDiff ms a.length b.length := hdmad
        · rintro ⟨hms, hfc⟩
          rw [failsFrequencyCheck_iff] at hfc
          have hfd : (freqDiffSum a b : ℚ) / 2 ≤ (d : ℚ) := by
            have := freqDiffSum_le_two_lev a b
            rw [← hd] at this
            have h2 : (freqDiffSum a b : ℚ) ≤ 2 * (d : ℚ) := by exact_mod_cast this
            linarith
          have hmadd : ((maxAllowedDiff ms a.length b.length : ℤ) : ℚ) ≥ (d : ℚ) := by
            exact_mod_cast hdmad
          linarith

/-! ### Auxiliary concrete data for witnesses -/

/-- A fragment with the same code as `dupFrag` but a different identity. -/
def dupFragB : ExtractedFunction :=
  { name := "g2", code := ['a'], normalizedCode := ['a'],
    filePath := "f2", startLine := 1, endLine := 1 }

def r12 : SimilarityResult :=
  { function1 := mkRef dupFrag, function2 := mkRef dupFragB,
    similarityScore := 100, normalizedScore := 100, lines1 := 1, lines2 := 1 }

def opts1 : ComparisonOptions :=
  { minSimilarity := 0, minLines := 1, normalize := false, excludeSelf := true }

def opts5 : ComparisonOptions :=
  { minSimilarity := 0, minLines := 5, normalize := true, excludeSelf := true }

/-- The sequential generation order: rows `i` ascending, and inside each
row the partners `j > i` ascending — i.e. pairs in ascending `(i, j)`
lexicographic order. -/
def seqGen (fns : List ExtractedFunction) (opts : ComparisonOptions) :
    List SimilarityResult :=
  (List.range (minLinesFilter fns opts.minLines).length).flatMap
    (pairRow (minLinesFilter fns opts.minLines) opts.minSimilarity
      opts.normalize opts.excludeSelf)

/-- The parallel pre-sort order after merging: also ascending `(i, j)`,
because chunks are concatenated in worker order and each worker scans
its rows ascending. -/
def parGen (fns : List ExtractedFunction) (opts : ComparisonOptions) :
    List SimilarityResult :=
  (List.range (minLinesFilter fns opts.minLines).length).flatMap
    (fun i => (workerRow (minLinesFilter fns opts.minLines) opts.minSimilarity
      opts.normalize i).map (toSimilarityResult (minLinesFilter fns opts.minLines)))

/-- Modelled from the spec wording of §4.2 (claim C5): the score cases
exactly as the claim lists them, to be compared with the
implementation. -/
def specSimilarityWithThreshold (a b : List Char) (ms : Option ℚ) : ℚ :=
  if a = b ∨ (a.length = 0 ∧ b.length = 0) then 100
  else if a.length = 0 ∨ b.length = 0 then 0
  else
    match ms with
    | some v =>
        let ceiling : ℤ := ⌊((max a.length b.length : ℕ) : ℚ) * (1 - v / 100)⌋
        let d := levenshteinDistanceWithThreshold a b (some ceiling)
        if ceiling < d then 0
        else ((round ((((max a.length b.length : ℕ) : ℚ) - (d : ℚ)) /
          ((max a.length b.length : ℕ) : ℚ) * 10000) : ℤ) : ℚ) / 100
    | none =>
        let d := levenshteinDistanceWithThreshold a b none
        ((round ((((max a.length b.length : ℕ) : ℚ) - (d : ℚ)) /
          ((max a.length b.length : ℕ) : ℚ) * 10000) : ℤ) : ℚ) / 100

/-! ### The claims -/

/-- C4: `levenshteinDistance` returns the minimum number of
single-character insertions, deletions, or substitutions required to
transform one string into the other (the least `n` with `EditsTo n`);
in particular equal strings yield 0, and when one operand is empty the
result is the other operand's length. -/
theorem C4_levenshtein_minimal (s t : List Char) :
    EditsTo (levenshteinDistance s t) s t ∧
    (∀ n : ℕ, EditsTo n s t → levenshteinDistance s t ≤ n) ∧
    levenshteinDistance s s = 0 ∧
    levenshteinDistance s [] = s.length ∧
    levenshteinDistance [] t = t.length := by
  refine ⟨?_, ?_, ?_, ?_, ?_⟩
  · rw [levenshteinDistance_eq]
    exact editsTo_lev s t
  · intro n hn
    rw [levenshteinDistance_eq]
    exact lev_le_editsTo hn
  · rw [levenshteinDistance_eq]
    exact lev_self s
  · rw [levenshteinDistance_eq]
    simp
  · rw [levenshteinDistance_eq]
    simp

theorem C4_levenshtein_minimal_witness :
    levenshteinDistance ['a'] ['b'] ≤ 1 ∧
      EditsTo (levenshteinDistance ['a'] ['b']) ['a'] ['b'] :=
  ⟨(C4_levenshtein_minimal ['a'] ['b']).2.1 1
      (EditsTo.step (EditStep.subst [] [] 'a' 'b') (EditsTo.refl _)),
    (C4_levenshtein_minimal ['a'] ['b']).1⟩

/-- C2 (counterexample): with an empty first operand and ceiling 1, the
thresholded function returns the other operand's length 3 — the true
distance — although that distance exceeds the ceiling, where the claim
demands exactly `c + 1 = 2`.  The early empty-operand exit runs before
any ceiling check. -/
theorem C2_counterexample :
    ¬ (∀ (s t : List Char) (c : ℤ),
        ((lev s t : ℤ) ≤ c →
          levenshteinDistanceWithThreshold s t (some c) = (lev s t : ℤ)) ∧
        (c < (lev s t : ℤ) →
          levenshteinDistanceWithThreshold s t (some c) = c + 1)) := by
  intro hclaim
  have h := (hclaim [] ['a', 'a', 'a'] 1).2
  have hlev : lev [] ['a', 'a', 'a'] = 3 := by simp
  rw [hlev] at h
  have hval : levenshteinDistanceWithThreshold [] ['a', 'a', 'a'] (some 1) = 3 := by decide
  have h2 := h (by norm_num)
  rw [hval] at h2
  norm_num at h2

/-- C2 (amended): the thresholded function returns the true distance
whenever that distance is within the ceiling; in every case its value
is either the true distance or exactly `c + 1` — never any other
value. -/
theorem C2_threshold_amended (s t : List Char) (c : ℤ) :
    ((lev s t : ℤ) ≤ c →
      levenshteinDistanceWithThreshold s t (some c) = (lev s t : ℤ)) ∧
    (levenshteinDistanceWithThreshold s t (some c) = c + 1 ∨
      levenshteinDistanceWithThreshold s t (some c) = (lev s t : ℤ)) :=
  ⟨levWT_some_eq_of_le s t c, levWT_some_cases s t c⟩

theorem C2_threshold_amended_witness :
    levenshteinDistanceWithThreshold ['a'] ['a', 'b'] (some 5) = 1 := by
  have hlev : lev ['a'] ['a', 'b'] = 1 := by
    rw [← levenshteinDistance_eq]
    decide
  have h := (C2_threshold_amended ['a'] ['a', 'b'] 5).1
  rw [hlev] at h
  exact_mod_cast h (by norm_num)

/-- C5: the thresholded scorer returns 100 when the strings are equal
or both empty, 0 when exactly one is empty, 0 when the thresholded
distance exceeds the ceiling `⌊maxLen·(1 − minSimilarity/100)⌋`, and
otherwise `round(((maxLen − distance)/maxLen)·10000)/100` — stated as
equality with a function written from the claim's wording. -/
theorem C5_threshold_scorer (a b : List Char) (ms : Option ℚ) :
    calculateSimilarityWithThreshold a b ms = specSimilarityWithThreshold a b ms := by
  rw [calculateSimilarityWithThreshold, specSimilarityWithThreshold.eq_def]
  by_cases h1 : a = b
  · rw [if_pos h1, if_pos (Or.inl h1)]
  · rw [if_neg h1]
    by_cases h2 : a.length = 0 ∧ b.length = 0
    · rw [if_pos h2, if_pos (Or.inr h2)]
    · rw [if_neg h2,
        if_neg (show ¬ (a = b ∨ a.length = 0 ∧ b.length = 0) from by tauto)]
      by_cases h3 : a.length = 0 ∨ b.length = 0
      · rw [if_pos h3, if_pos h3]
      · rw [if_neg h3, if_neg h3]
        cases ms with
        | none => rfl
        | some v => rfl

/-- C3 (counterexample): the rounded scorer can round a score up to the
threshold while the true length ratio is still below it, so the ratio
filter rejects a pair the scorer accepts: for "ab" vs "abc" the score
is `round(6666.66…)/100 = 66.67`, yet `(2/3)·100 < 66.67`, so with
`minSimilarity = 66.67` filter 1 rejects a qualifying pair. -/
theorem C3_counterexample :
    ¬ (∀ (a b : List Char) (ms : ℚ), 0 ≤ ms → ms ≤ 100 →
        ms ≤ calculateSimilarity a b →
        ¬ ratioFilterRejects ms a.length b.length ∧
        ¬ lengthFilterRejects ms a.length b.length ∧
        ¬ freqFilterRejects ms a b) := by
  intro hclaim
  have hscore : (6667/100 : ℚ) ≤ calculateSimilarity ['a', 'b'] ['a', 'b', 'c'] := by
    decide
  have h := hclaim ['a', 'b'] ['a', 'b', 'c'] (6667/100)
    (by norm_num) (by norm_num) hscore
  exact h.1 (by decide)

/-- C3 (amended): the three pruning filters are sound for the unrounded
similarity percentage: a pair whose unrounded score reaches the
threshold is never rejected by the ratio, absolute-difference, or
character-frequency filter. -/
theorem C3_pruning_sound_amended (a b : List Char) (ms : ℚ)
    (h0 : 0 ≤ ms) (h100 : ms ≤ 100) (hscore : ms ≤ rawSimilarity a b) :
    ¬ ratioFilterRejects ms a.length b.length ∧
    ¬ lengthFilterRejects ms a.length b.length ∧
    ¬ freqFilterRejects ms a b :=
  filters_sound a b ms h0 h100 hscore

theorem C3_pruning_sound_amended_witness :
    ¬ ratioFilterRejects 50 (['a'] : List Char).length (['a'] : List Char).length ∧
    ¬ lengthFilterRejects 50 (['a'] : List Char).length (['a'] : List Char).length ∧
    ¬ freqFilterRejects 50 ['a'] ['a'] :=
  C3_pruning_sound_amended ['a'] ['a'] 50 (by norm_num) (by norm_num)
    (by norm_num [rawSimilarity])

/-- C1 (counterexample): on a 100-fragment input containing two
identity-sharing fragments, with `excludeSelf = true`, the parallel
path reports the identity-sharing pair (its workers have no
excludeSelf check) while the sequential path reports nothing. -/
theorem C1_counterexample :
    compareAllParallel 4 frags100 opts100 ≠ compareAll frags100 opts100 := by
  intro heq
  obtain ⟨r, hr, hshared⟩ := parallel_frags100_mem
  rw [heq, compareAll_frags100] at hr
  simp at hr

/-- C1 (amended): for every worker count ≥ 1, `compareAllParallel`
returns exactly `compareAll`'s list — same pairs, same scores, same
final order — provided the missing worker-side excludeSelf check cannot
fire: either `excludeSelf` is off, or no two surviving fragments share
an identity. -/
theorem C1_parallel_parity_amended (W : ℕ) (fns : List ExtractedFunction)
    (opts : ComparisonOptions) (hW : 1 ≤ W)
    (hok : opts.excludeSelf = false ∨ (minLinesFilter fns opts.minLines).Pairwise
      (fun f g => ¬ (f.filePath = g.filePath ∧ f.startLine = g.startLine))) :
    compareAllParallel W fns opts = compareAll fns opts :=
  compareAllParallel_eq_compareAll W fns opts hW hok

theorem C1_parallel_parity_amended_witness :
    compareAllParallel 1 [dupFrag, dupFragB] opts100 =
      compareAll [dupFrag, dupFragB] opts100 :=
  C1_parallel_parity_amended 1 [dupFrag, dupFragB] opts100 (by norm_num)
    (Or.inr (by
      simp only [minLinesFilter, opts100]
      norm_num
      decide))

/-- C6 (counterexample): `frags100` holds the identity-sharing fragment
`dupFrag` at positions 0 and 1, `excludeSelf` is on, and the parallel
path still emits a result pairing two references with that shared
identity. -/
theorem C6_counterexample :
    frags100[0]? = some dupFrag ∧ frags100[1]? = some dupFrag ∧
    opts100.excludeSelf = true ∧
    ∃ r ∈ compareAllParallel 4 frags100 opts100,
      r.function1.filePath = r.function2.filePath ∧
        r.function1.startLine = r.function2.startLine :=
  ⟨rfl, rfl, rfl, parallel_frags100_mem⟩

/-- C6 (amended): with `excludeSelf = true` the sequential driver never
emits an identity-sharing pair; the parallel driver guarantees this
only on inputs that take its sequential fallback (fewer than 100
surviving fragments) — its worker path does not honour excludeSelf. -/
theorem C6_self_exclusion_amended (fns : List ExtractedFunction)
    (opts : ComparisonOptions) (hex : opts.excludeSelf = true) :
    (∀ r ∈ compareAll fns opts,
      ¬ (r.function1.filePath = r.function2.filePath ∧
         r.function1.startLine = r.function2.startLine)) ∧
    ((minLinesFilter fns opts.minLines).length < 100 →
      ∀ (W : ℕ), ∀ r ∈ compareAllParallel W fns opts,
        ¬ (r.function1.filePath = r.function2.filePath ∧
           r.function1.startLine = r.function2.startLine)) := by
  have hmain : ∀ (fns2 : List ExtractedFunction), ∀ r ∈ compareAll fns2 opts,
      ¬ (r.function1.filePath = r.function2.filePath ∧
         r.function1.startLine = r.function2.startLine) := by
    intro fns2 r hr
    obtain ⟨i, j, f1, f2, hij, h1, h2, h3⟩ := mem_compareAll hr
    obtain ⟨hno, hcore⟩ := compareAllPair_some_fields h3
    obtain ⟨hF1, hF2, _, _, _, _⟩ := comparePairCore_some_fields hcore
    rw [hF1, hF2]
    exact fun hcon => hno hex ⟨hcon.1, hcon.2⟩
  refine ⟨hmain fns, fun hsm W r hr => ?_⟩
  rw [compareAllParallel_small W fns opts hsm] at hr
  exact hmain (minLinesFilter fns opts.minLines) r hr

theorem C6_self_exclusion_amended_witness :
    ¬ (r12.function1.filePath = r12.function2.filePath ∧
       r12.function1.startLine = r12.function2.startLine) :=
  (C6_self_exclusion_amended [dupFrag, dupFragB] opts100 rfl).1 r12 (by decide)

/-- C7: both drivers return a list sorted descending by normalized
score; the relative order of equal scores is the generation order,
which enumerates pairs in ascending `(i, j)` (`seqGen` / `parGen` are
the generation sequences, built from ascending ranges); and the
parallel result does not depend on how many workers partitioned the
work. -/
theorem C7_sorted_stable (fns : List ExtractedFunction) (opts : ComparisonOptions)
    (W Wb : ℕ) (hW : 1 ≤ W) (hWb : 1 ≤ Wb) :
    (compareAll fns opts).Pairwise keyGe ∧
    (∀ s : ℚ, (compareAll fns opts).filter (fun r => decide (r.normalizedScore = s)) =
      (seqGen fns opts).filter (fun r => decide (r.normalizedScore = s))) ∧
    (compareAllParallel W fns opts).Pairwise keyGe ∧
    (¬ (minLinesFilter fns opts.minLines).length < 100 →
      ∀ s : ℚ, (compareAllParallel W fns opts).filter
          (fun r => decide (r.normalizedScore = s)) =
        (parGen fns opts).filter (fun r => decide (r.normalizedScore = s))) ∧
    ((minLinesFilter fns opts.minLines).length < 100 →
      compareAllParallel W fns opts = compareAll (minLinesFilter fns opts.minLines) opts) ∧
    compareAllParallel W fns opts = compareAllParallel Wb fns opts := by
  refine ⟨?_, ?_, ?_, ?_, ?_, ?_⟩
  · rw [compareAll_def]
    exact (sortDesc_spec _).1
  · intro s
    rw [compareAll_def, seqGen]
    exact (sortDesc_spec _).2 s
  · by_cases h : (minLinesFilter fns opts.minLines).length < 100
    · rw [compareAllParallel_small W fns opts h, compareAll_def]
      exact (sortDesc_spec _).1
    · rw [compareAllParallel_big W fns opts h]
      exact (sortDesc_spec _).1
  · intro h s
    rw [compareAllParallel_big W fns opts h, parGen,
      ← merged_eq_full (minLinesFilter fns opts.minLines) opts.minSimilarity
        opts.normalize W hW]
    exact (sortDesc_spec _).2 s
  · intro h
    exact compareAllParallel_small W fns opts h
  · by_cases h : (minLinesFilter fns opts.minLines).length < 100
    · rw [compareAllParallel_small W fns opts h, compareAllParallel_small Wb fns opts h]
    · rw [compareAllParallel_big W fns opts h, compareAllParallel_big Wb fns opts h]
      rw [merged_eq_full (minLinesFilter fns opts.minLines) opts.minSimilarity
          opts.normalize W hW,
        merged_eq_full (minLinesFilter fns opts.minLines) opts.minSimilarity
          opts.normalize Wb hWb]

theorem C7_sorted_stable_witness :
    (compareAll [dupFrag, dupFragB] opts100).Pairwise keyGe :=
  (C7_sorted_stable [dupFrag, dupFragB] opts100 1 2 (by norm_num) (by norm_num)).1

/-- C8: with `minLines > 0`, every reported result's two line counts
are at least `minLines` (so no undersized fragment appears in any
result), and the whole computation factors through the order-preserving
`List.filter` applied once up front: running `compareAll` on the
pre-filtered sequence gives the identical output. -/
theorem C8_minLines_prefilter (fns : List ExtractedFunction) (opts : ComparisonOptions)
    (h : 0 < opts.minLines) :
    (∀ r ∈ compareAll fns opts,
      (opts.minLines : ℤ) ≤ r.lines1 ∧ (opts.minLines : ℤ) ≤ r.lines2) ∧
    compareAll fns opts =
      compareAll (fns.filter (fun f => decide ((opts.minLines : ℤ) ≤ linesOf f))) opts := by
  constructor
  · intro r hr
    obtain ⟨i, j, f1, f2, hij, h1, h2, h3⟩ := mem_compareAll hr
    obtain ⟨_, hcore⟩ := compareAllPair_some_fields h3
    obtain ⟨_, _, _, _, hl1, hl2⟩ := comparePairCore_some_fields hcore
    have hm1 : f1 ∈ minLinesFilter fns opts.minLines :=
      List.mem_iff_getElem?.2 ⟨i, h1⟩
    have hm2 : f2 ∈ minLinesFilter fns opts.minLines :=
      List.mem_iff_getElem?.2 ⟨j, h2⟩
    rw [minLinesFilter, if_pos h] at hm1 hm2
    have hd1 := List.of_mem_filter hm1
    have hd2 := List.of_mem_filter hm2
    simp only [decide_eq_true_eq] at hd1 hd2
    rw [hl1, hl2]
    exact ⟨hd1, hd2⟩
  · rw [compareAll_def, compareAll_def]
    have heq : minLinesFilter fns opts.minLines =
        minLinesFilter (fns.filter (fun f => decide ((opts.minLines : ℤ) ≤ linesOf f)))
          opts.minLines := by
      rw [minLinesFilter, minLinesFilter, if_pos h, if_pos h, List.filter_filter]
      apply List.filter_congr
      intro f _
      simp
    rw [← heq]

theorem C8_minLines_prefilter_witness :
    compareAll [dupFrag] opts1 =
      compareAll ([dupFrag].filter (fun f => decide ((opts1.minLines : ℤ) ≤ linesOf f)))
        opts1 :=
  (C8_minLines_prefilter [dupFrag] opts1 (by decide)).2

/-- C9: every result either driver emits has a normalized score in
`[0, 100]` that is at least the configured threshold, and its
`function1` / `function2` references come from a pair of surviving
fragments taken in index order (`i < j`). -/
theorem C9_result_invariants (fns : List ExtractedFunction) (opts : ComparisonOptions)
    (W : ℕ) (r : SimilarityResult)
    (h : r ∈ compareAll fns opts ∨ r ∈ compareAllParallel W fns opts) :
    0 ≤ r.normalizedScore ∧ r.normalizedScore ≤ 100 ∧
    opts.minSimilarity ≤ r.normalizedScore ∧
    ∃ (i j : ℕ) (f1 f2 : ExtractedFunction), i < j ∧
      (minLinesFilter fns opts.minLines)[i]? = some f1 ∧
      (minLinesFilter fns opts.minLines)[j]? = some f2 ∧
      r.function1 = mkRef f1 ∧ r.function2 = mkRef f2 := by
  have key : ∃ (i j : ℕ) (f1 f2 : ExtractedFunction), i < j ∧
      (minLinesFilter fns opts.minLines)[i]? = some f1 ∧
      (minLinesFilter fns opts.minLines)[j]? = some f2 ∧
      comparePairCore opts.minSimilarity opts.normalize f1 f2 = some r := by
    rcases h with h | h
    · obtain ⟨i, j, f1, f2, hij, h1, h2, h3⟩ := mem_compareAll h
      exact ⟨i, j, f1, f2, hij, h1, h2, (compareAllPair_some_fields h3).2⟩
    · obtain ⟨i, j, f1, f2, hij, h1, h2, h3⟩ := mem_compareAllParallel h
      rcases h3 with h3 | h3
      · exact ⟨i, j, f1, f2, hij, h1, h2, (compareAllPair_some_fields h3).2⟩
      · exact ⟨i, j, f1, f2, hij, h1, h2, h3⟩
  obtain ⟨i, j, f1, f2, hij, h1, h2, hcore⟩ := key
  obtain ⟨hF1, hF2, hns, hms, _, _⟩ := comparePairCore_some_fields hcore
  have hb := calcSimWT_bounds (textOf opts.normalize f1) (textOf opts.normalize f2)
    (some opts.minSimilarity)
  refine ⟨?_, ?_, hms, i, j, f1, f2, hij, h1, h2, hF1, hF2⟩
  · rw [hns]
    exact hb.1
  · rw [hns]
    exact hb.2

theorem C9_result_invariants_witness :
    0 ≤ r12.normalizedScore ∧ r12.normalizedScore ≤ 100 ∧
    opts100.minSimilarity ≤ r12.normalizedScore ∧
    ∃ (i j : ℕ) (f1 f2 : ExtractedFunction), i < j ∧
      (minLinesFilter [dupFrag, dupFragB] opts100.minLines)[i]? = some f1 ∧
      (minLinesFilter [dupFrag, dupFragB] opts100.minLines)[j]? = some f2 ∧
      r12.function1 = mkRef f1 ∧ r12.function2 = mkRef f2 :=
  C9_result_invariants [dupFrag, dupFragB] opts100 1 r12 (Or.inl (by decide))

/-- C10: `compareOne` never pairs the target with a fragment sharing
the target's identity, unconditionally; the `excludeSelf` option has no
effect on it; and with `minLines > 0` an undersized target yields the
empty list. -/
theorem C10_compareOne_props (target : ExtractedFunction)
    (fns : List ExtractedFunction) (opts : ComparisonOptions) :
    (∀ r ∈ compareOne target fns opts,
      ¬ (r.function2.filePath = target.filePath ∧
         r.function2.startLine = target.startLine)) ∧
    (∀ e : Bool, compareOne target fns opts =
      compareOne target fns { opts with excludeSelf := e }) ∧
    (0 < opts.minLines → linesOf target < (opts.minLines : ℤ) →
      compareOne target fns opts = []) := by
  refine ⟨?_, ?_, ?_⟩
  · intro r hr
    rw [compareOne] at hr
    by_cases hsmall : 0 < opts.minLines ∧ linesOf target < (opts.minLines : ℤ)
    · rw [if_pos hsmall] at hr
      simp at hr
    · rw [if_neg hsmall] at hr
      rw [mem_sortDesc, List.mem_filterMap] at hr
      obtain ⟨func, hfunc, hval⟩ := hr
      by_cases hml : 0 < opts.minLines ∧ linesOf func < (opts.minLines : ℤ)
      · rw [if_pos hml] at hval
        exact Option.noConfusion hval
      · rw [if_neg hml] at hval
        by_cases hself : func.filePath = target.filePath ∧
            func.startLine = target.startLine
        · rw [if_pos hself] at hval
          exact Option.noConfusion hval
        · rw [if_neg hself] at hval
          have key : ∀ ns rs : ℚ,
              (if opts.minSimilarity ≤ ns then
                some { function1 := mkRef target, function2 := mkRef func,
                       similarityScore := rs, normalizedScore := ns,
                       lines1 := linesOf target, lines2 := linesOf func } else
                (none : Option SimilarityResult)) = some r →
              r.function2 = mkRef func := by
            intro ns rs hv
            split_ifs at hv with hsc
            rw [Option.some.injEq] at hv
            exact hv ▸ rfl
          have h2 := key
            (if opts.normalize then
              calculateSimilarity target.normalizedCode func.normalizedCode
            else calculateSimilarity target.code func.code)
            (calculateSimilarity target.code func.code) hval
          rw [h2]
          simpa [mkRef] using hself
  · intro e
    rfl
  · intro h1 h2
    rw [compareOne, if_pos ⟨h1, h2⟩]

theorem C10_compareOne_props_witness :
    compareOne dupFrag [dupFragB] opts5 = [] :=
  (C10_compareOne_props dupFrag [dupFragB] opts5).2.2 (by decide) (by decide)

end TsSim
